import Mathlib

/-!
A shallow embedding of the Offer construction of
`src/chia/wallet/puzzles/offer.py` (the core of this repository slice),
together with proofs about the claims of its specification.

32-byte hash values are modelled as natural numbers; the cryptographic
hash functions of the external collaborators (`Program.get_tree_hash`,
`Coin.name`) are modelled as injective encodings into `Nat`, which is
what the source relies on (collision-freeness of sha256).  The puzzle
evaluator that `SpendBundle.additions()` delegates to is external to the
slice, so the development is parametric in a function
`run : Program → Program → List (Hash × Nat)` yielding the
(puzzle_hash, amount) pairs of the coins a spend creates.
-/

namespace ChiaOffer

/-- 32-byte values (asset ids, puzzle hashes, coin names, nonces). -/
abbrev Hash := Nat

/-- `ZERO_32`, the all-zero hash used as sentinel parent id of dummy coins. -/
def Z32 : Hash := 0

/-- CLVM programs (`chia.types.blockchain_format.program.Program`):
an opaque, canonically-serializable expression tree. -/
inductive Program where
  | atom (n : Nat)
  | cons (a b : Program)
deriving DecidableEq, Repr

/-- `Program.to` on a Python list: a cons chain terminated by nil (atom 0). -/
def Program.ofList : List Program → Program
  | [] => .atom 0
  | p :: ps => .cons p (Program.ofList ps)

/-- `Program.as_iter`: yield the elements of a cons chain (stops at any atom). -/
def Program.asIter : Program → List Program
  | .atom _ => []
  | .cons a b => a :: b.asIter

/-- Injective encoding of programs into `Nat` (stands in for canonical
serialization). -/
def Program.encode : Program → Nat
  | .atom n => 2 * n
  | .cons a b => 2 * (Nat.pair a.encode b.encode) + 1

/-- `Program.get_tree_hash`, modelled as an injective function of the tree. -/
def Program.treeHash (p : Program) : Hash := p.encode

/-- The compiled settlement puzzle `OFFER_MOD = load_clvm("settlement_payments.clvm")`,
opaque to the core; modelled as a distinguished atom. -/
def OFFER_MOD : Program := .atom 1

/-- The compiled CAT wrapper module `CAT_MOD`, opaque to the core;
modelled as a distinguished atom. -/
def CAT_MOD : Program := .atom 2

/-- Modelled from the spec: `construct_cat_puzzle(mod, tail, inner)`
(in `chia.wallet.cat_wallet.cat_utils`, not part of this slice) curries
the tokenization module with the tail hash and the inner puzzle;
`construct_wrapper` and `match_wrapper` form an injection (spec §4.2). -/
def constructCatPuzzle (m : Program) (tail : Hash) (inner : Program) : Program :=
  .cons m (.cons (.atom tail) (.cons inner (.atom 0)))

/-- Modelled from the spec: `match_cat_puzzle` (in
`chia.wallet.cat_wallet.cat_utils`, not part of this slice) recovers the
curried arguments `(mod, tail, inner)` from a wrapped puzzle and fails on
any program that is not a `CAT_MOD` wrapping. -/
def matchCatPuzzle : Program → Option (Program × Hash × Program)
  | .cons m (.cons (.atom t) (.cons inner (.atom 0))) =>
      if m = CAT_MOD then some (m, t, inner) else none
  | _ => none

/-- `chia.types.blockchain_format.coin.Coin`: `(parent_coin_info, puzzle_hash, amount)`. -/
structure Coin where
  parent_coin_info : Hash
  puzzle_hash : Hash
  amount : Nat
deriving DecidableEq, Repr

/-- Modelled from the spec: `Coin.name()` (coin naming is inherited from the
external collaborator), a deterministic hash of the coin's fields, modelled
as an injective encoding. -/
def Coin.name (c : Coin) : Hash :=
  Nat.pair c.parent_coin_info (Nat.pair c.puzzle_hash c.amount)

/-- Modelled from the spec: `Coin.as_list()`, the canonical list form
`[parent_coin_info, puzzle_hash, amount]` of a coin. -/
def Coin.asList (c : Coin) : Program :=
  Program.ofList [.atom c.parent_coin_info, .atom c.puzzle_hash, .atom c.amount]

/-- Modelled from the spec: `chia.wallet.payment.Payment` (not part of this
slice): `(puzzle_hash, amount, memos)`, a value object with structural
equality. -/
structure Payment where
  puzzle_hash : Hash
  amount : Nat
  memos : List Nat
deriving DecidableEq, Repr

/-- Modelled from the spec: `Payment.as_condition_args()` yields the
positional representation `[puzzle_hash, amount, memos]`. -/
def Payment.asConditionArgs (p : Payment) : List Program :=
  [.atom p.puzzle_hash, .atom p.amount, Program.ofList (p.memos.map .atom)]

/-- `NotarizedPayment`: a `Payment` bound to a nonce
(`class NotarizedPayment(Payment): nonce: bytes32 = ZERO_32`). -/
structure NotarizedPayment extends Payment where
  nonce : Hash
deriving DecidableEq, Repr

/-- `NotarizedPayment.as_condition`:
`Program.to([self.nonce, *self.as_condition_args()])`. -/
def NotarizedPayment.asCondition (np : NotarizedPayment) : Program :=
  Program.ofList (.atom np.nonce :: np.toPayment.asConditionArgs)

/-- `Payment.name()` as dispatched on a `NotarizedPayment`: the tree hash of
its (overridden) condition form, hence deterministic over all fields
including the nonce. -/
def NotarizedPayment.name (np : NotarizedPayment) : Hash :=
  np.asCondition.treeHash

/-- A list comprehension whose body may fail: `some` of the mapped list when
every element parses, `none` otherwise. -/
def optionMapList {α β : Type} (f : α → Option β) : List α → Option (List β)
  | [] => some []
  | a :: t =>
    match f a, optionMapList f t with
    | some b, some bs => some (b :: bs)
    | _, _ => none

/-- `NotarizedPayment.from_condition`: the nonce is the first element of the
condition; the remaining fields are recovered through `Payment.from_condition`
(modelled from the spec: `payment.py` is not part of this slice; parsing a
condition `[nonce, puzzle_hash, amount, memos]` fails on malformed input). -/
def NotarizedPayment.fromCondition (c : Program) : Option NotarizedPayment :=
  match c.asIter with
  | Program.atom nonce :: Program.atom ph :: Program.atom amt :: rest =>
    let memos? : Option (List Nat) :=
      match rest with
      | [] => some []
      | m :: _ =>
        optionMapList
          (fun q =>
            match q with
            | Program.atom x => some x
            | Program.cons _ _ => none)
          m.asIter
    memos?.map fun ms => ⟨⟨ph, amt, ms⟩, nonce⟩
  | _ => none

/-- Aggregated BLS signatures, modelled as a free monoid: `G2Element()` is
`[]` and signature aggregation is concatenation. -/
abbrev Sig := List Nat

/-- `chia.types.coin_spend.CoinSpend`. -/
structure CoinSpend where
  coin : Coin
  puzzle_reveal : Program
  solution : Program
deriving DecidableEq, Repr

/-- `chia.types.spend_bundle.SpendBundle`. -/
structure SpendBundle where
  coin_spends : List CoinSpend
  aggregated_signature : Sig
deriving DecidableEq, Repr

/-- Modelled from the spec: `SpendBundle.aggregate` (external collaborator):
union (concatenation) of the spends plus signature aggregation. -/
def SpendBundle.aggregate (l : List SpendBundle) : SpendBundle :=
  ⟨(l.map SpendBundle.coin_spends).flatten, (l.map SpendBundle.aggregated_signature).flatten⟩

/-- Modelled from the spec: the additions of a single spend as produced by the
external puzzle evaluator `run`: each created coin has the spent coin's name
as its parent. -/
def CoinSpend.additions (run : Program → Program → List (Hash × Nat))
    (cs : CoinSpend) : List Coin :=
  (run cs.puzzle_reveal cs.solution).map fun pa => ⟨cs.coin.name, pa.1, pa.2⟩

/-- Modelled from the spec: `SpendBundle.additions()` — the outputs implied by
running each puzzle/solution of the bundle. -/
def SpendBundle.additions (run : Program → Program → List (Hash × Nat))
    (sb : SpendBundle) : List Coin :=
  (sb.coin_spends.map (CoinSpend.additions run)).flatten

/-! ### Python `dict` as an insertion-ordered association list -/

/-- `d.get(k)` / `k in d`: the value at the first (unique, for genuine dicts)
occurrence of the key. -/
def dictGet? {K V : Type} [DecidableEq K] (d : List (K × V)) (k : K) : Option V :=
  (d.find? fun kv => kv.1 = k).map (·.2)

/-- `d[k] = v`: replace the value at an existing key in place, else append. -/
def dictSet {K V : Type} [DecidableEq K] : List (K × V) → K → V → List (K × V)
  | [], k, v => [(k, v)]
  | (k', v') :: rest, k, v =>
    if k' = k then (k', v) :: rest else (k', v') :: dictSet rest k v

/-- `k in d`. -/
def dictContains {K V : Type} [DecidableEq K] (d : List (K × V)) (k : K) : Bool :=
  (dictGet? d k).isSome

/-- `d[k].append(v)` or `d[k] = [v]`, the accumulation pattern of
`get_offered_coins`. -/
def dictAppend {K V : Type} [DecidableEq K] (d : List (K × List V)) (k : K) (v : V) :
    List (K × List V) :=
  match dictGet? d k with
  | some l => dictSet d k (l ++ [v])
  | none => dictSet d k [v]

/-- Asset keys: `None` is the native asset, `Some h` a tokenized asset with
tail hash `h`. -/
abbrev AssetKey := Option Hash

/-- Errors surfaced by the core (`ValueError`s, `KeyError`, `IndexError` and
`AssertionError` in the source, plus decoding failures and the `uint64`
range error). -/
inductive OfferError where
  | EmptyOffer
  | DuplicatePayment
  | OverlappingInputs
  | Incomplete
  | Malformed
  | KeyError
  | IndexError
  | AssertionFailed
  | Overflow
deriving DecidableEq, Repr

/-- The `uint64(...)` range check applied to each per-asset sum
(offer.py lines 119 and 128): values above `2^64 - 1` raise
(spec §4.4.2 `Overflow`; the `uint64` class itself is outside this slice). -/
def uint64Check (n : Nat) : Except OfferError Nat :=
  if n < 2 ^ 64 then .ok n else .error .Overflow

/-- A loop whose body may raise: `ok` of the mapped list when every element
passes, the first error otherwise. -/
def exceptMapList {α β : Type} (f : α → Except OfferError β) :
    List α → Except OfferError (List β)
  | [] => .ok []
  | a :: t =>
    match f a, exceptMapList f t with
    | .ok b, .ok bs => .ok (b :: bs)
    | .error e, _ => .error e
    | .ok _, .error e => .error e

/-- The `Offer` record: `requested_payments` (a dict keyed by asset) and the
offered `bundle`.  Construction-time validation lives in `Offer.mk?`. -/
structure Offer where
  requested_payments : List (AssetKey × List NotarizedPayment)
  bundle : SpendBundle
deriving DecidableEq, Repr

/-- The per-addition body of `get_offered_coins` (offer.py lines 94-107):
find the parent spend by coin name, match its puzzle reveal against the CAT
wrapper to learn the asset key and the settlement puzzle hash for that asset,
and keep the addition exactly when its puzzle hash is that settlement hash.
`none` covers both the skip case and the (unreachable, see
`classifyAddition_mem_additions`) missing-parent case. -/
def classifyAddition (spends : List CoinSpend) (a : Coin) : Option AssetKey :=
  match spends.find? fun cs => cs.coin.name = a.parent_coin_info with
  | none => none
  | some parent =>
    match matchCatPuzzle parent.puzzle_reveal with
    | some (_, t, _) =>
      if a.puzzle_hash = (constructCatPuzzle CAT_MOD t OFFER_MOD).treeHash
      then some (some t) else none
    | none =>
      if a.puzzle_hash = OFFER_MOD.treeHash then some none else none

/-- `get_offered_coins` over the spends and additions of a bundle. -/
def offeredCoinsOf (run : Program → Program → List (Hash × Nat)) (sb : SpendBundle) :
    List (AssetKey × List Coin) :=
  (sb.additions run).foldl
    (fun d a =>
      match classifyAddition sb.coin_spends a with
      | some k => dictAppend d k a
      | none => d) []

/-- `Offer.get_offered_coins`. -/
def Offer.getOfferedCoins (run : Program → Program → List (Hash × Nat)) (o : Offer) :
    List (AssetKey × List Coin) :=
  offeredCoinsOf run o.bundle

/-- `Offer.get_offered_amounts`: per-asset `uint64(sum(...))` of offered coin
amounts, raising `Overflow` on the first per-asset sum above `2^64 - 1`
(the source rebuilds a dict over the — key-unique — offered-coins dict,
which is this map). -/
def Offer.getOfferedAmounts (run : Program → Program → List (Hash × Nat)) (o : Offer) :
    Except OfferError (List (AssetKey × Nat)) :=
  exceptMapList
    (fun kv => (uint64Check ((kv.2.map Coin.amount).sum)).map fun n => (kv.1, n))
    (o.getOfferedCoins run)

/-- `Offer.get_requested_payments`. -/
def Offer.getRequestedPayments (o : Offer) : List (AssetKey × List NotarizedPayment) :=
  o.requested_payments

/-- `Offer.get_requested_amounts`: per-asset `uint64(sum(...))` of requested
payment amounts, raising `Overflow` on the first per-asset sum above
`2^64 - 1` (the source rebuilds a dict over the — key-unique — requested
dict, which is this map). -/
def Offer.getRequestedAmounts (o : Offer) : Except OfferError (List (AssetKey × Nat)) :=
  exceptMapList
    (fun kv => (uint64Check ((kv.2.map fun np => np.amount).sum)).map fun n => (kv.1, n))
    o.requested_payments

/-- The arbitrage dict built from the two (already computed) amount views:
for every key of either view, in requested-then-offered order,
`offered - requested` as a signed integer with missing sides read as `0`. -/
def arbDict (offered requested : List (AssetKey × Nat)) : List (AssetKey × Int) :=
  ((requested.map Prod.fst) ++ (offered.map Prod.fst)).foldl
    (fun d k =>
      dictSet d k ((((dictGet? offered k).getD 0 : Nat) : Int)
        - (((dictGet? requested k).getD 0 : Nat) : Int)))
    []

/-- `Offer.arbitrage`: computes the offered amounts first, then the requested
amounts (propagating their `Overflow` errors in that order), then the signed
per-key differences. -/
def Offer.arbitrage (run : Program → Program → List (Hash × Nat)) (o : Offer) :
    Except OfferError (List (AssetKey × Int)) :=
  match o.getOfferedAmounts run, o.getRequestedAmounts with
  | .ok offered, .ok requested => .ok (arbDict offered requested)
  | .error e, _ => .error e
  | .ok _, .error e => .error e

/-- `Offer.is_valid`: every arbitrage entry is nonnegative (propagating the
amount views' `Overflow` errors). -/
def Offer.isValid (run : Program → Program → List (Hash × Nat)) (o : Offer) :
    Except OfferError Bool :=
  (o.arbitrage run).map fun arb => arb.all fun kv => decide (0 ≤ kv.2)

/-- The duplicate-payment scan of `__post_init__`: some asset's payment list
has two entries with the same `name()` (`len(set(names)) != len(names)`). -/
def hasDuplicatePayments (rp : List (AssetKey × List NotarizedPayment)) : Bool :=
  rp.any fun kv => !(decide (kv.2.map NotarizedPayment.name).Nodup)

/-- The `Offer` constructor including `__post_init__`: reject an empty
offering, then reject duplicate requested payments, otherwise accept. -/
def Offer.mk? (run : Program → Program → List (Hash × Nat))
    (rp : List (AssetKey × List NotarizedPayment)) (bundle : SpendBundle) :
    Except OfferError Offer :=
  let o : Offer := ⟨rp, bundle⟩
  if o.getOfferedCoins run = [] then .error .EmptyOffer
  else if hasDuplicatePayments rp then .error .DuplicatePayment
  else .ok o

/-- The sort key order of `sorted(coins, key=Coin.name)`. -/
def coinNameLE (a b : Coin) : Prop := a.name ≤ b.name

instance : DecidableRel coinNameLE := fun a b => Nat.decLe a.name b.name

/-- The nonce derived in `notarize_payments` (offer.py lines 54-56): the tree
hash of the canonical list form of the input coins sorted by name. -/
def Offer.nonceOf (coins : List Coin) : Hash :=
  Program.treeHash (Program.ofList ((List.insertionSort coinNameLE coins).map Coin.asList))

/-- `Offer.notarize_payments`, value level: every payment under every key is
rebound to the nonce derived from the coin set (the reference-level in-place
behaviour is modelled separately by `Offer.notarizePaymentsRef`). -/
def Offer.notarizePayments (rp : List (AssetKey × List Payment)) (coins : List Coin) :
    List (AssetKey × List NotarizedPayment) :=
  let nonce := Offer.nonceOf coins
  rp.map fun kv => (kv.1, kv.2.map fun p => ⟨p, nonce⟩)

/-- The overlap test of `Offer.aggregate`: the two bundles spend a common
coin (`total_inputs & offer_inputs` on the sets of input coins). -/
def sharesCoin (sb1 sb2 : SpendBundle) : Bool :=
  sb1.coin_spends.any fun cs => sb2.coin_spends.any fun cs2 => cs2.coin = cs.coin

/-- The inner merge of `Offer.aggregate` at value level: extend the total's
list per key, creating absent keys at the end. -/
def mergeRequestedPayments (total rp : List (AssetKey × List NotarizedPayment)) :
    List (AssetKey × List NotarizedPayment) :=
  rp.foldl
    (fun t kv =>
      match dictGet? t kv.1 with
      | some l => dictSet t kv.1 (l ++ kv.2)
      | none => dictSet t kv.1 kv.2)
    total

/-- The loop of `Offer.aggregate` (offer.py lines 148-162). -/
def Offer.aggregateLoop (offers : List Offer)
    (total : List (AssetKey × List NotarizedPayment)) (totalBundle : SpendBundle) :
    Except OfferError (List (AssetKey × List NotarizedPayment) × SpendBundle) :=
  match offers with
  | [] => .ok (total, totalBundle)
  | o :: rest =>
    if sharesCoin totalBundle o.bundle then .error .OverlappingInputs
    else
      Offer.aggregateLoop rest (mergeRequestedPayments total o.requested_payments)
        (SpendBundle.aggregate [totalBundle, o.bundle])

/-- `Offer.aggregate`: run the loop from an empty total, then construct (and
so validate) the combined offer. -/
def Offer.aggregate (run : Program → Program → List (Hash × Nat)) (offers : List Offer) :
    Except OfferError Offer :=
  match Offer.aggregateLoop offers [] ⟨[], []⟩ with
  | .error e => .error e
  | .ok (rp, sb) => Offer.mk? run rp sb

/-- The dummy spend `__bytes__` creates for one requested asset: coin
`(Z32, settlement_ph, 0)`, settlement puzzle reveal, the notarized conditions
as solution. -/
def dummySpendFor (kv : AssetKey × List NotarizedPayment) : CoinSpend :=
  let puzzleReveal := match kv.1 with
    | some t => constructCatPuzzle CAT_MOD t OFFER_MOD
    | none => OFFER_MOD
  ⟨⟨Z32, puzzleReveal.treeHash, 0⟩, puzzleReveal,
    Program.ofList (kv.2.map NotarizedPayment.asCondition)⟩

/-- `Offer.__bytes__` up to the external byte codec: the combined spend bundle
of one dummy spend per requested asset followed by the offered bundle. -/
def Offer.toSpendBundle (o : Offer) : SpendBundle :=
  SpendBundle.aggregate [⟨o.requested_payments.map dummySpendFor, []⟩, o.bundle]

/-- The loop body of `Offer.from_bytes`: a spend whose coin has the `Z32`
parent sentinel is a dummy — its key is recovered from the (un)matched
wrapper and its solution parsed as notarized conditions (`Malformed` on
parse failure) — while every other spend is a leftover offered spend. -/
def fromBytesStep (acc : List (AssetKey × List NotarizedPayment) × List CoinSpend)
    (cs : CoinSpend) :
    Except OfferError (List (AssetKey × List NotarizedPayment) × List CoinSpend) :=
  if cs.coin.parent_coin_info = Z32 then
    let tailKey : AssetKey := match matchCatPuzzle cs.puzzle_reveal with
      | some (_, t, _) => some t
      | none => none
    match optionMapList NotarizedPayment.fromCondition cs.solution.asIter with
    | some payments => Except.ok (dictSet acc.1 tailKey payments, acc.2)
    | none => Except.error OfferError.Malformed
  else Except.ok (acc.1, acc.2 ++ [cs])

/-- `Offer.from_bytes` after the external byte codec has produced the spend
bundle: partition on the `Z32` parent sentinel, then construct the offer from
the parsed payments and the leftover spends. -/
def Offer.fromSpendBundle (run : Program → Program → List (Hash × Nat))
    (sb : SpendBundle) : Except OfferError Offer :=
  match sb.coin_spends.foldlM fromBytesStep ([], []) with
  | .error e => .error e
  | .ok (rp, leftovers) => Offer.mk? run rp ⟨leftovers, sb.aggregated_signature⟩

/-- Lineage proofs of CAT spends (`chia.wallet.lineage_proof`, external). -/
structure LineageProof where
  parent_name : Hash
  inner_puzzle_hash : Hash
  amount : Nat
deriving DecidableEq, Repr

/-- `SpendableCAT` (`chia.wallet.cat_wallet.cat_utils`, external). -/
structure SpendableCAT where
  coin : Coin
  limitations_program_hash : Hash
  inner_puzzle : Program
  inner_solution : Program
  lineage_proof : LineageProof
deriving DecidableEq, Repr

/-- Modelled from the spec: the solution of the single wrapped `CoinSpend`
that `unsigned_spend_bundle_for_spendable_cats(CAT_MOD, [sc])` produces
(the tokenization helper is external to this slice; the core only forwards
its output, so any total function of the spendable entry is adequate). -/
def catSpendSolution (sc : SpendableCAT) : Program :=
  Program.ofList
    [sc.inner_solution,
     Program.ofList [.atom sc.lineage_proof.parent_name,
       .atom sc.lineage_proof.inner_puzzle_hash, .atom sc.lineage_proof.amount],
     .atom sc.limitations_program_hash]

/-- The payment list completed by the surplus (offer.py lines 174-176):
`payments.copy()` plus, when the arbitrage amount is positive,
`NotarizedPayment(arbitrage_ph, arbitrage_amount)` — whose `memos` and
`nonce` fields take their declared defaults `[]` and `ZERO_32`. -/
def allPaymentsFor (payments : List NotarizedPayment) (arbitrageAmount : Int)
    (arbitragePh : Hash) : List NotarizedPayment :=
  payments ++
    (if 0 < arbitrageAmount then [⟨⟨arbitragePh, arbitrageAmount.toNat, []⟩, Z32⟩] else [])

/-- The per-coin body of `to_valid_spend` (offer.py lines 178-210): the inner
solution carries the full condition list on (coins equal to) the first
offered coin and the empty list on the rest; tokenized assets find the parent
spend by coin name (`IndexError` when absent — unreachable for genuine
additions), assert the CAT match, and wrap through the CAT helper. -/
def completionStep (run : Program → Program → List (Hash × Nat)) (o : Offer)
    (tailKey : AssetKey) (offeredCoins : List Coin) (allPayments : List NotarizedPayment)
    (spends : List CoinSpend) (coin : Coin) : Except OfferError (List CoinSpend) :=
  let innerSolution := Program.ofList
    (if offeredCoins.head? = some coin
     then allPayments.map NotarizedPayment.asCondition else [])
  match tailKey with
  | some tailHash =>
    match o.bundle.coin_spends.find? fun cs => cs.coin.name = coin.parent_coin_info with
    | some parentSpend =>
      match matchCatPuzzle parentSpend.puzzle_reveal with
      | some triple =>
        let spendableCat : SpendableCAT :=
          ⟨coin, tailHash, OFFER_MOD, innerSolution,
            ⟨parentSpend.coin.parent_coin_info, triple.2.2.treeHash, parentSpend.coin.amount⟩⟩
        .ok (spends ++
          [⟨coin, constructCatPuzzle CAT_MOD tailHash OFFER_MOD,
            catSpendSolution spendableCat⟩])
      | none => .error .AssertionFailed
    | none => .error .IndexError
  | none => .ok (spends ++ [⟨coin, OFFER_MOD, innerSolution⟩])

/-- The body of `to_valid_spend` for one requested asset key (offer.py lines
171-210): look up the offered coins and the arbitrage amount (`KeyError` when
the key is absent), append the surplus payment, then emit one completion
spend per offered coin. -/
def Offer.toValidSpendKey (run : Program → Program → List (Hash × Nat)) (o : Offer)
    (arbitragePh : Hash) (tailKey : AssetKey) (payments : List NotarizedPayment) :
    Except OfferError (List CoinSpend) :=
  match dictGet? (o.getOfferedCoins run) tailKey with
  | none => .error .KeyError
  | some offeredCoins =>
    match o.arbitrage run with
    | .error e => .error e
    | .ok arb =>
      match dictGet? arb tailKey with
      | none => .error .KeyError
      | some arbitrageAmount =>
        offeredCoins.foldlM
          (completionStep run o tailKey offeredCoins
            (allPaymentsFor payments arbitrageAmount arbitragePh))
          []

/-- `Offer.to_valid_spend(arbitrage_ph)`: evaluate `is_valid()` (propagating
its errors), reject invalid offers with `Incomplete`, then emit the
completion spends per requested asset. -/
def Offer.toValidSpend (run : Program → Program → List (Hash × Nat)) (o : Offer)
    (arbitragePh : Hash) : Except OfferError SpendBundle :=
  match o.isValid run with
  | .error e => .error e
  | .ok valid =>
    if valid = false then .error .Incomplete
    else
      match o.requested_payments.foldlM
          (fun spends kv =>
            match Offer.toValidSpendKey run o arbitragePh kv.1 kv.2 with
            | .ok more => Except.ok (spends ++ more)
            | .error e => Except.error e)
          [] with
      | .error e => .error e
      | .ok completionSpends =>
        .ok (SpendBundle.aggregate [⟨completionSpends, []⟩, o.bundle])

/-! ### Reference-level models of the two mutating operations

Python dict values are references to shared, mutable list objects.  The two
claims about in-place effects are settled against an explicit heap of list
(resp. dict) objects addressed by references. -/

/-- A reference to a Python list object. -/
abbrev ListRef := Nat

/-- A heap of `List NotarizedPayment` objects. -/
abbrev PayHeap := List (ListRef × List NotarizedPayment)

/-- An offer whose `requested_payments` dict holds references to payment-list
objects living in a `PayHeap`. -/
structure OfferRef where
  requested_payments : List (AssetKey × ListRef)
  bundle : SpendBundle
deriving DecidableEq, Repr

/-- The inner merge of `Offer.aggregate` at reference level
(offer.py lines 156-160): `total_requested_payments[tail] = payments` stores
a reference to the input offer's own list, and a later
`total_requested_payments[tail].extend(payments)` therefore mutates that
input offer's list in place. -/
def aggregateMergeRef (total : List (AssetKey × ListRef)) (rp : List (AssetKey × ListRef))
    (h : PayHeap) : List (AssetKey × ListRef) × PayHeap :=
  rp.foldl
    (fun acc kv =>
      match dictGet? acc.1 kv.1 with
      | some tref =>
        let tlist := (dictGet? acc.2 tref).getD []
        let plist := (dictGet? acc.2 kv.2).getD []
        (acc.1, dictSet acc.2 tref (tlist ++ plist))
      | none => (dictSet acc.1 kv.1 kv.2, acc.2))
    (total, h)

/-- The loop of `Offer.aggregate` at reference level. -/
def Offer.aggregateRefLoop (offers : List OfferRef)
    (total : List (AssetKey × ListRef)) (totalBundle : SpendBundle) (h : PayHeap) :
    Except OfferError (List (AssetKey × ListRef) × SpendBundle × PayHeap) :=
  match offers with
  | [] => .ok (total, totalBundle, h)
  | o :: rest =>
    if sharesCoin totalBundle o.bundle then .error .OverlappingInputs
    else
      let th := aggregateMergeRef total o.requested_payments h
      Offer.aggregateRefLoop rest th.1 (SpendBundle.aggregate [totalBundle, o.bundle]) th.2

/-- `Offer.aggregate` at reference level: the resulting offer's payment lists
are read off the final heap; the final heap is returned so that the
post-state of the input offers' lists is observable. -/
def Offer.aggregateRef (run : Program → Program → List (Hash × Nat))
    (offers : List OfferRef) (h : PayHeap) : Except OfferError (Offer × PayHeap) :=
  match Offer.aggregateRefLoop offers [] ⟨[], []⟩ h with
  | .error e => .error e
  | .ok (total, sb, hFinal) =>
    match Offer.mk? run (total.map fun kv => (kv.1, (dictGet? hFinal kv.2).getD [])) sb with
    | .error e => .error e
    | .ok o => .ok (o, hFinal)

/-- A reference to a Python dict object. -/
abbrev DictRef := Nat

/-- A payment-list element as stored in a caller's dict: either a plain
`Payment` (before notarization) or a `NotarizedPayment`. -/
inductive PayObj where
  | plain (p : Payment)
  | notarized (np : NotarizedPayment)
deriving DecidableEq, Repr

/-- The `Payment` fields of either form (`as_condition_args` positions). -/
def PayObj.fields : PayObj → Payment
  | .plain p => p
  | .notarized np => np.toPayment

/-- A heap of requested-payments dict objects. -/
abbrev ReqHeap := List (DictRef × List (AssetKey × List PayObj))

/-- `Offer.notarize_payments` at reference level (offer.py lines 49-61): the
function overwrites each key's list inside the dict object it was handed
(`requested_payments[tail_hash] = [...]`) and returns that same object. -/
def Offer.notarizePaymentsRef (r : DictRef) (coins : List Coin) (h : ReqHeap) :
    DictRef × ReqHeap :=
  let nonce := Offer.nonceOf coins
  let contents := (dictGet? h r).getD []
  let contentsNew := contents.map fun kv =>
    (kv.1, kv.2.map fun p => PayObj.notarized ⟨p.fields, nonce⟩)
  (r, dictSet h r contentsNew)

/-- A concrete puzzle evaluator for witnesses and counterexamples: the
solution lists the created coins literally as `[puzzle_hash, amount]` pairs. -/
def runLit : Program → Program → List (Hash × Nat) := fun _ sol =>
  sol.asIter.filterMap fun c =>
    match c.asIter with
    | [Program.atom ph, Program.atom amt] => some (ph, amt)
    | _ => none

/-- `Offer.ph()`: the native settlement puzzle hash. -/
def Offer.ph : Hash := OFFER_MOD.treeHash

/-! ### Concrete fixtures used by witnesses and counterexamples -/

/-- Fixture: a solution instructing `runLit` to create one settlement output
of 1000. -/
def wSol : Program := Program.ofList [Program.ofList [.atom Offer.ph, .atom 1000]]

/-- Fixture: a native coin spend whose (literal) output is a settlement coin
of 1000. -/
def wSpend : CoinSpend := ⟨⟨5, 6, 1000⟩, OFFER_MOD, wSol⟩

/-- Fixture: a requested payment of 700. -/
def wNp : NotarizedPayment := ⟨⟨77, 700, []⟩, 9⟩

/-- Fixture: an offer of 1000 native requesting 700 native (surplus 300). -/
def wOffer : Offer := ⟨[(none, [wNp])], ⟨[wSpend], [3]⟩⟩

/-- Fixture: the coin of `wSpend`. -/
def wCoin : Coin := ⟨5, 6, 1000⟩

/-- Fixture: a second, distinct coin. -/
def wCoin2 : Coin := ⟨7, 8, 500⟩

/-- Fixture: a second requested payment, distinct from `wNp`. -/
def c8Np2 : NotarizedPayment := ⟨⟨78, 300, []⟩, 9⟩

/-- Fixture: a spend of an unrelated coin producing no settlement output. -/
def c8SpendB : CoinSpend := ⟨⟨9, 9, 9⟩, OFFER_MOD, .atom 0⟩

/-- Fixture: first input to reference-level aggregation; its native payment
list lives at heap reference 1. -/
def c8OfferRef1 : OfferRef := ⟨[(none, 1)], ⟨[wSpend], [3]⟩⟩

/-- Fixture: second input to reference-level aggregation; its native payment
list lives at heap reference 2; its input coin is disjoint from the first. -/
def c8OfferRef2 : OfferRef := ⟨[(none, 2)], ⟨[c8SpendB], [4]⟩⟩

/-- Fixture: the initial list heap for reference-level aggregation. -/
def c8Heap : PayHeap := [(1, [wNp]), (2, [c8Np2])]

/-- Fixture: a spend whose coin carries the `Z32` parent sentinel yet sits in
an offer's own bundle (its nil solution parses as an empty condition list). -/
def cxSpendZ : CoinSpend := ⟨⟨Z32, 0, 0⟩, OFFER_MOD, .atom 0⟩

/-- Fixture: an offer accepted by construction whose bundle contains
`cxSpendZ`. -/
def cxOffer : Offer := ⟨[], ⟨[wSpend, cxSpendZ], [3]⟩⟩

/-- Fixture: a requested payment of amount 0. -/
def c10Np : NotarizedPayment := ⟨⟨77, 0, []⟩, 9⟩

/-- Fixture: an offer with `is_valid()` true that requests amount 0 under a
tokenized key having no offered coin. -/
def c10Offer : Offer := ⟨[(some 7, [c10Np])], ⟨[wSpend], [3]⟩⟩

/-- Fixture: two requested payments of `2^63` each (each a legal uint64
amount) whose sum overflows uint64. -/
def oBigNp1 : NotarizedPayment := ⟨⟨81, 2 ^ 63, []⟩, 9⟩

/-- Fixture: the second `2^63` requested payment (distinct name). -/
def oBigNp2 : NotarizedPayment := ⟨⟨82, 2 ^ 63, []⟩, 9⟩

/-- Fixture: an offer accepted by construction whose native requested sum is
`2^64`, overflowing the `uint64` range check of `get_requested_amounts`. -/
def oBig : Offer := ⟨[(none, [oBigNp1, oBigNp2])], ⟨[wSpend], [3]⟩⟩

/-- Fixture: a solution instructing `runLit` to create one settlement output
of `2^63`. -/
def w63Sol : Program := Program.ofList [Program.ofList [.atom Offer.ph, .atom (2 ^ 63)]]

/-- Fixture: a spend offering `2^63` native. -/
def w63SpendA : CoinSpend := ⟨⟨11, 12, 2 ^ 63⟩, OFFER_MOD, w63Sol⟩

/-- Fixture: a second spend, of a distinct coin, offering `2^63` native. -/
def w63SpendB : CoinSpend := ⟨⟨13, 14, 2 ^ 63⟩, OFFER_MOD, w63Sol⟩

/-- Fixture: a valid offer (requests nothing, offers `2^63` native). -/
def o63a : Offer := ⟨[], ⟨[w63SpendA], [5]⟩⟩

/-- Fixture: a second valid offer with disjoint input coins. -/
def o63b : Offer := ⟨[], ⟨[w63SpendB], [6]⟩⟩

/-- Fixture: the aggregate of `o63a` and `o63b`: its native offered sum is
`2^64`, overflowing the `uint64` range check of `get_offered_amounts`. -/
def c6AggOffer : Offer := ⟨[], ⟨[w63SpendA, w63SpendB], [5, 6]⟩⟩

/-- The input coins of a bundle (the coins its spends consume). -/
def inputCoins (sb : SpendBundle) : List Coin := sb.coin_spends.map CoinSpend.coin

/-- Two bundles overlap when they spend a common input coin. -/
def overlapProp (sb1 sb2 : SpendBundle) : Prop :=
  ∃ c, c ∈ inputCoins sb1 ∧ c ∈ inputCoins sb2

/-- Per-key requested amount of a requested-payments dict (0 when the key is
absent). -/
def reqAmtD (rp : List (AssetKey × List NotarizedPayment)) (k : AssetKey) : Nat :=
  (((dictGet? rp k).getD []).map fun np => np.amount).sum

/-- Per-key offered amount of the offered-coins view of a bundle (0 when the
key is absent). -/
def offAmtD (run : Program → Program → List (Hash × Nat)) (sb : SpendBundle)
    (k : AssetKey) : Nat :=
  (((dictGet? (offeredCoinsOf run sb) k).getD []).map Coin.amount).sum

end ChiaOffer

deriving instance DecidableEq for Except

namespace ChiaOffer

/-! ### Basic lemmas about the embedded primitives -/

theorem Program.asIter_ofList (l : List Program) : (Program.ofList l).asIter = l := by
  induction l with
  | nil => rfl
  | cons a t ih => simp [Program.ofList, Program.asIter, ih]

theorem Coin.name_injective : Function.Injective Coin.name := by
  intro a b h
  unfold Coin.name at h
  rw [Nat.pair_eq_pair] at h
  obtain ⟨h1, h2⟩ := h
  rw [Nat.pair_eq_pair] at h2
  cases a; cases b; simp_all

instance : IsTotal Coin coinNameLE := ⟨fun a b => Nat.le_total a.name b.name⟩

instance : IsTrans Coin coinNameLE := ⟨fun _ _ _ => Nat.le_trans⟩

instance : IsAntisymm Coin coinNameLE :=
  ⟨fun a b h1 h2 => Coin.name_injective (Nat.le_antisymm h1 h2)⟩

theorem optionMapList_atoms (memos : List Nat) :
    optionMapList
      (fun q =>
        match q with
        | Program.atom x => some x
        | Program.cons _ _ => none)
      (memos.map Program.atom) = some memos := by
  induction memos with
  | nil => rfl
  | cons m t ih => simp [optionMapList, ih]

theorem NotarizedPayment.fromCondition_asCondition (np : NotarizedPayment) :
    NotarizedPayment.fromCondition np.asCondition = some np := by
  obtain ⟨⟨ph, amt, memos⟩, nonce⟩ := np
  simp [NotarizedPayment.asCondition, Payment.asConditionArgs,
    NotarizedPayment.fromCondition, Program.asIter_ofList, optionMapList_atoms]

theorem optionMapList_fromCondition_asCondition (ps : List NotarizedPayment) :
    optionMapList NotarizedPayment.fromCondition (ps.map NotarizedPayment.asCondition) =
      some ps := by
  induction ps with
  | nil => rfl
  | cons p t ih => simp [optionMapList, NotarizedPayment.fromCondition_asCondition, ih]

theorem matchCatPuzzle_construct (t : Hash) :
    matchCatPuzzle (constructCatPuzzle CAT_MOD t OFFER_MOD) = some (CAT_MOD, t, OFFER_MOD) := by
  simp [matchCatPuzzle, constructCatPuzzle]

theorem matchCatPuzzle_offerMod : matchCatPuzzle OFFER_MOD = none := rfl

/-! ### Lemmas about the dict model -/

theorem dictGet?_nil {K V : Type} [DecidableEq K] (k : K) :
    dictGet? ([] : List (K × V)) k = none := rfl

theorem dictGet?_cons {K V : Type} [DecidableEq K] (kv : K × V) (d : List (K × V)) (k : K) :
    dictGet? (kv :: d) k = if kv.1 = k then some kv.2 else dictGet? d k := by
  by_cases h : kv.1 = k <;> simp [dictGet?, List.find?_cons, h]

theorem dictGet?_dictSet {K V : Type} [DecidableEq K] (d : List (K × V)) (k k2 : K) (v : V) :
    dictGet? (dictSet d k v) k2 = if k2 = k then some v else dictGet? d k2 := by
  induction d with
  | nil =>
    by_cases h : k2 = k
    · subst h; simp [dictSet, dictGet?_cons]
    · have h2 : ¬ k = k2 := fun h3 => h h3.symm
      simp [dictSet, dictGet?_cons, h, h2]
  | cons kv t ih =>
    simp only [dictSet]
    by_cases h1 : kv.1 = k
    · rw [if_pos h1]
      by_cases h2 : k2 = k
      · subst h2; simp [dictGet?_cons, h1]
      · have h3 : ¬ kv.1 = k2 := fun h4 => h2 (h4.symm.trans h1)
        simp [dictGet?_cons, h2, h3]
    · rw [if_neg h1]
      by_cases h2 : kv.1 = k2
      · have h3 : ¬ k2 = k := fun h4 => h1 (h2.trans h4)
        simp [dictGet?_cons, h2, h3]
      · simp [dictGet?_cons, h2, ih]

theorem dictGet?_eq_some_mem {K V : Type} [DecidableEq K] {d : List (K × V)} {k : K} {v : V}
    (h : dictGet? d k = some v) : (k, v) ∈ d := by
  unfold dictGet? at h
  obtain ⟨kv, hfind, hval⟩ := Option.map_eq_some'.mp h
  have hmem := List.mem_of_find?_eq_some hfind
  have hkey := List.find?_some hfind
  obtain ⟨k1, v1⟩ := kv
  simp at hkey hval
  subst hkey; subst hval; exact hmem

theorem mem_dictSet {K V : Type} [DecidableEq K] {d : List (K × V)} {k : K} {v : V}
    {kv : K × V} (h : kv ∈ dictSet d k v) : kv ∈ d ∨ kv = (k, v) := by
  induction d with
  | nil => simp [dictSet] at h; simp [h]
  | cons hd t ih =>
    simp only [dictSet] at h
    by_cases h1 : hd.1 = k
    · rw [if_pos h1] at h
      rcases List.mem_cons.mp h with h2 | h2
      · right; rw [h2, ← h1]
      · left; exact List.mem_cons_of_mem _ h2
    · rw [if_neg h1] at h
      rcases List.mem_cons.mp h with h2 | h2
      · left; rw [h2]; exact List.mem_cons_self _ _
      · rcases ih h2 with h3 | h3
        · left; exact List.mem_cons_of_mem _ h3
        · right; exact h3

theorem dictSet_fresh_append {K V : Type} [DecidableEq K] (d : List (K × V)) (k : K) (v : V)
    (h : dictGet? d k = none) : dictSet d k v = d ++ [(k, v)] := by
  induction d with
  | nil => rfl
  | cons kv t ih =>
    rw [dictGet?_cons] at h
    by_cases h1 : kv.1 = k
    · simp [h1] at h
    · simp only [dictSet, if_neg h1, List.cons_append, List.cons.injEq, true_and]
      exact ih (by simpa [h1] using h)

theorem dictGet?_map_values {K V W : Type} [DecidableEq K] (d : List (K × V)) (f : V → W)
    (k : K) : dictGet? (d.map fun kv => (kv.1, f kv.2)) k = (dictGet? d k).map f := by
  induction d with
  | nil => rfl
  | cons kv t ih =>
    by_cases h : kv.1 = k <;> simp [dictGet?_cons, h, ih]

theorem dictContains_iff_mem_keys {K V : Type} [DecidableEq K] (d : List (K × V)) (k : K) :
    dictContains d k = true ↔ k ∈ d.map Prod.fst := by
  unfold dictContains dictGet?
  rw [Option.isSome_map', List.find?_isSome]
  constructor
  · rintro ⟨kv, hmem, hp⟩
    simp at hp
    exact hp ▸ List.mem_map_of_mem Prod.fst hmem
  · intro h
    obtain ⟨kv, hmem, hk⟩ := List.mem_map.mp h
    exact ⟨kv, hmem, by simp [hk]⟩

theorem foldl_dictSet_get {K V : Type} [DecidableEq K] (F : K → V) (ks : List K)
    (d0 : List (K × V)) (k : K) :
    dictGet? (ks.foldl (fun d k2 => dictSet d k2 (F k2)) d0) k =
      if k ∈ ks then some (F k) else dictGet? d0 k := by
  induction ks generalizing d0 with
  | nil => simp
  | cons a t ih =>
    rw [List.foldl_cons, ih]
    by_cases h1 : k ∈ t
    · simp [h1]
    · by_cases h2 : k = a <;> simp [h1, h2, dictGet?_dictSet]

theorem mem_foldl_dictSet {K V : Type} [DecidableEq K] (F : K → V) (ks : List K)
    (d0 : List (K × V)) (h0 : ∀ kv ∈ d0, kv.2 = F kv.1) :
    ∀ kv ∈ ks.foldl (fun d k2 => dictSet d k2 (F k2)) d0, kv.2 = F kv.1 := by
  induction ks generalizing d0 with
  | nil => exact h0
  | cons a t ih =>
    rw [List.foldl_cons]
    refine ih _ ?_
    intro kv hkv
    rcases mem_dictSet hkv with h | h
    · exact h0 kv h
    · rw [h]

end ChiaOffer

namespace ChiaOffer

/-! ### C2: arbitrage and validity -/

theorem arbDict_get (offered requested : List (AssetKey × Nat)) (k : AssetKey) :
    dictGet? (arbDict offered requested) k =
      if k ∈ (requested.map Prod.fst) ++ (offered.map Prod.fst)
      then some ((((dictGet? offered k).getD 0 : Nat) : Int) -
          (((dictGet? requested k).getD 0 : Nat) : Int))
      else none := by
  unfold arbDict
  rw [foldl_dictSet_get, dictGet?_nil]
  by_cases hm : k ∈ (requested.map Prod.fst) ++ (offered.map Prod.fst)
  · rw [if_pos hm, if_pos hm]
  · rw [if_neg hm, if_neg hm]

theorem exceptMapList_ok_eq_map {α β : Type} (f : α → Except OfferError β) (g : α → β)
    (hsome : ∀ a b, f a = .ok b → b = g a) :
    ∀ (l : List α) (bs : List β), exceptMapList f l = .ok bs → bs = l.map g := by
  intro l
  induction l with
  | nil =>
    intro bs h
    rw [List.map_nil]
    exact (Except.ok.inj h).symm
  | cons a t ih =>
    intro bs h
    unfold exceptMapList at h
    cases hfa : f a with
    | error e => rw [hfa] at h; cases h
    | ok b =>
      rw [hfa] at h
      cases hrest : exceptMapList f t with
      | error e => rw [hrest] at h; cases h
      | ok bs2 =>
        rw [hrest] at h
        rw [List.map_cons, ← ih bs2 hrest, ← hsome a b hfa]
        exact (Except.ok.inj h).symm

theorem uint64Check_map_ok {α : Type} (key : α → AssetKey) (val : α → Nat) (a : α)
    (b : AssetKey × Nat) (h : ((uint64Check (val a)).map fun n => (key a, n)) = .ok b) :
    b = (key a, val a) := by
  unfold uint64Check at h
  by_cases hlt : val a < 2 ^ 64
  · rw [if_pos hlt] at h
    exact (Except.ok.inj h).symm
  · rw [if_neg hlt] at h
    cases h

theorem offeredAmounts_ok_eq_map (run : Program → Program → List (Hash × Nat)) (o : Offer)
    (offered : List (AssetKey × Nat)) (hok : o.getOfferedAmounts run = .ok offered) :
    offered = (o.getOfferedCoins run).map fun kv => (kv.1, (kv.2.map Coin.amount).sum) :=
  exceptMapList_ok_eq_map _ _
    (fun a b h => uint64Check_map_ok Prod.fst (fun kv => (kv.2.map Coin.amount).sum) a b h)
    (o.getOfferedCoins run) offered hok

theorem requestedAmounts_ok_eq_map (o : Offer) (requested : List (AssetKey × Nat))
    (hok : o.getRequestedAmounts = .ok requested) :
    requested = o.requested_payments.map fun kv =>
      (kv.1, (kv.2.map fun np => np.amount).sum) :=
  exceptMapList_ok_eq_map _ _
    (fun a b h =>
      uint64Check_map_ok Prod.fst (fun kv => (kv.2.map fun np => np.amount).sum) a b h)
    o.requested_payments requested hok

theorem arbitrage_ok_intro (run : Program → Program → List (Hash × Nat)) (o : Offer)
    (offered requested : List (AssetKey × Nat))
    (hoff : o.getOfferedAmounts run = .ok offered)
    (hreq : o.getRequestedAmounts = .ok requested) :
    o.arbitrage run = .ok (arbDict offered requested) := by
  unfold Offer.arbitrage
  rw [hoff, hreq]

theorem arbitrage_ok_elim (run : Program → Program → List (Hash × Nat)) (o : Offer)
    (arb : List (AssetKey × Int)) (h : o.arbitrage run = .ok arb) :
    ∃ offered requested, o.getOfferedAmounts run = .ok offered
      ∧ o.getRequestedAmounts = .ok requested ∧ arb = arbDict offered requested := by
  unfold Offer.arbitrage at h
  cases hoff : o.getOfferedAmounts run with
  | error e => rw [hoff] at h; cases h
  | ok offered =>
    rw [hoff] at h
    cases hreq : o.getRequestedAmounts with
    | error e => rw [hreq] at h; cases h
    | ok requested =>
      rw [hreq] at h
      exact ⟨offered, requested, rfl, rfl, (Except.ok.inj h).symm⟩

theorem isValid_ok_true_elim (run : Program → Program → List (Hash × Nat)) (o : Offer)
    (h : o.isValid run = .ok true) :
    ∃ arb, o.arbitrage run = .ok arb ∧ ∀ kv ∈ arb, 0 ≤ kv.2 := by
  unfold Offer.isValid at h
  cases harb : o.arbitrage run with
  | error e => rw [harb] at h; cases h
  | ok arb =>
    rw [harb] at h
    refine ⟨arb, rfl, ?_⟩
    have h2 : (arb.all fun kv => decide (0 ≤ kv.2)) = true := Except.ok.inj h
    intro kv hkv
    exact of_decide_eq_true (List.all_eq_true.mp h2 kv hkv)

/-- C2 counterexample: `oBig` is accepted by construction (construction never
sums), its per-asset requested sum is `2^64`, and `arbitrage()`/`is_valid()`
raise the `uint64` `Overflow` error instead of returning the claimed mapping
and boolean. -/
theorem C2_counterexample :
    Offer.mk? runLit oBig.requested_payments oBig.bundle = .ok oBig
    ∧ oBig.arbitrage runLit = .error .Overflow
    ∧ oBig.isValid runLit = .error .Overflow := by
  exact ⟨by decide, by decide, by decide⟩

/-- C2 (amended): for every Offer whose per-asset offered and requested sums
fit in uint64 (both amount views return), `arbitrage()` returns a mapping
with exactly the asset keys appearing in either view, mapping each such key
to the signed difference of the offered amount (0 when absent) and the
requested amount (0 when absent); and `is_valid()` returns true iff every
value of that mapping is nonnegative.  Without the restriction both raise
`Overflow`. -/
theorem C2_arbitrage_and_isValid_amended (run : Program → Program → List (Hash × Nat))
    (o : Offer) (offered requested : List (AssetKey × Nat))
    (hoff : o.getOfferedAmounts run = .ok offered)
    (hreq : o.getRequestedAmounts = .ok requested) :
    o.arbitrage run = .ok (arbDict offered requested)
    ∧ (∀ k : AssetKey, dictContains (arbDict offered requested) k = true ↔
        (dictContains offered k = true ∨ dictContains requested k = true))
    ∧ (∀ k : AssetKey, dictContains (arbDict offered requested) k = true →
        dictGet? (arbDict offered requested) k =
          some ((((dictGet? offered k).getD 0 : Nat) : Int) -
            (((dictGet? requested k).getD 0 : Nat) : Int)))
    ∧ (o.isValid run = .ok true ↔ ∀ kv ∈ arbDict offered requested, 0 ≤ kv.2) := by
  have harb := arbitrage_ok_intro run o offered requested hoff hreq
  refine ⟨harb, ?_, ?_, ?_⟩
  · intro k
    rw [dictContains, arbDict_get, dictContains_iff_mem_keys, dictContains_iff_mem_keys]
    by_cases h : k ∈ (requested.map Prod.fst) ++ (offered.map Prod.fst) <;>
      simp only [List.mem_append] at h <;> simp [List.mem_append, h] <;> tauto
  · intro k hk
    rw [dictContains, arbDict_get] at hk
    rw [arbDict_get]
    by_cases h : k ∈ (requested.map Prod.fst) ++ (offered.map Prod.fst)
    · rw [if_pos h]
    · rw [if_neg h] at hk; simp at hk
  · unfold Offer.isValid
    rw [harb]
    show Except.ok ((arbDict offered requested).all fun kv => decide (0 ≤ kv.2)) =
      Except.ok true ↔ _
    constructor
    · intro h kv hkv
      exact of_decide_eq_true (List.all_eq_true.mp (Except.ok.inj h) kv hkv)
    · intro h
      have hall : ((arbDict offered requested).all fun kv => decide (0 ≤ kv.2)) = true :=
        List.all_eq_true.mpr fun kv hkv => decide_eq_true (h kv hkv)
      rw [hall]

/-- C2 witness: the amended characterization at the concrete fixture offer:
its arbitrage view is the dict built from its two (in-range) amount views. -/
theorem C2_witness :
    wOffer.arbitrage runLit = .ok (arbDict [(none, 1000)] [(none, 700)]) :=
  (C2_arbitrage_and_isValid_amended runLit wOffer [(none, 1000)] [(none, 700)]
    (by decide) (by decide)).1

/-! ### C3: construction-time validation -/

/-- C3: over a well-formed bundle, construction fails with `EmptyOffer`
exactly when `get_offered_coins()` is empty; otherwise it fails with
`DuplicatePayment` exactly when some asset key's payment list has two entries
with the same `name()`; otherwise it succeeds with the given fields and
performs no other validation. -/
theorem C3_constructor_validation (run : Program → Program → List (Hash × Nat))
    (rp : List (AssetKey × List NotarizedPayment)) (bundle : SpendBundle)
    (hwf : ∀ a ∈ bundle.additions run,
      bundle.coin_spends.countP (fun cs => decide (cs.coin.name = a.parent_coin_info)) = 1) :
    (Offer.mk? run rp bundle = .error .EmptyOffer ↔
        Offer.getOfferedCoins run ⟨rp, bundle⟩ = [])
    ∧ (Offer.mk? run rp bundle = .error .DuplicatePayment ↔
        (Offer.getOfferedCoins run ⟨rp, bundle⟩ ≠ [] ∧
         ∃ kv ∈ rp, ¬ (kv.2.map NotarizedPayment.name).Nodup))
    ∧ (Offer.mk? run rp bundle = .ok ⟨rp, bundle⟩ ↔
        (Offer.getOfferedCoins run ⟨rp, bundle⟩ ≠ [] ∧
         ∀ kv ∈ rp, (kv.2.map NotarizedPayment.name).Nodup)) := by
  clear hwf
  have hdup : hasDuplicatePayments rp = true ↔
      ∃ kv ∈ rp, ¬ (kv.2.map NotarizedPayment.name).Nodup := by
    simp [hasDuplicatePayments, List.any_eq_true]
  by_cases h1 : Offer.getOfferedCoins run ⟨rp, bundle⟩ = []
  · have hmk : Offer.mk? run rp bundle = .error .EmptyOffer := by
      unfold Offer.mk?; rw [if_pos h1]
    rw [hmk]
    exact ⟨iff_of_true rfl h1,
      iff_of_false (by simp) fun h => h.1 h1,
      iff_of_false (by simp) fun h => h.1 h1⟩
  · by_cases h2 : hasDuplicatePayments rp = true
    · have hmk : Offer.mk? run rp bundle = .error .DuplicatePayment := by
        unfold Offer.mk?; rw [if_neg h1, if_pos h2]
      rw [hmk]
      exact ⟨iff_of_false (by simp) h1,
        iff_of_true rfl ⟨h1, hdup.mp h2⟩,
        iff_of_false (by simp) fun h => by
          obtain ⟨kv, hkv, hnd⟩ := hdup.mp h2
          exact hnd (h.2 kv hkv)⟩
    · have hmk : Offer.mk? run rp bundle = .ok ⟨rp, bundle⟩ := by
        unfold Offer.mk?; rw [if_neg h1, if_neg h2]
      rw [hmk]
      exact ⟨iff_of_false (by simp) h1,
        iff_of_false (by simp) fun h => h2 (hdup.mpr h.2),
        iff_of_true rfl ⟨h1, fun kv hkv => by
          by_contra hnd
          exact h2 (hdup.mpr ⟨kv, hkv, hnd⟩)⟩⟩

/-- C3 witness: the concrete fixture offer is accepted by construction. -/
theorem C3_witness :
    Offer.mk? runLit wOffer.requested_payments wOffer.bundle =
      .ok ⟨wOffer.requested_payments, wOffer.bundle⟩ :=
  (C3_constructor_validation runLit wOffer.requested_payments wOffer.bundle
    (by decide)).2.2.mpr ⟨by decide, by decide⟩

end ChiaOffer

namespace ChiaOffer

/-! ### C7: nonce determinism -/

/-- Every notarized payment produced by `notarize_payments` carries the nonce
derived from the coin set. -/
theorem notarizePayments_nonce (rp : List (AssetKey × List Payment)) (coins : List Coin) :
    ∀ kv ∈ Offer.notarizePayments rp coins, ∀ np ∈ kv.2, np.nonce = Offer.nonceOf coins := by
  intro kv hkv np hnp
  unfold Offer.notarizePayments at hkv
  obtain ⟨kv0, _, rfl⟩ := List.mem_map.mp hkv
  obtain ⟨p, _, rfl⟩ := List.mem_map.mp hnp
  rfl

/-- C7 counterexample: two coin lists that are equal as unordered sets (same
deduplicated elements) but differ in multiplicity produce different nonces,
because `sorted(coins, key=Coin.name)` keeps duplicates. -/
theorem C7_counterexample :
    ([wCoin, wCoin].dedup = [wCoin].dedup)
    ∧ Offer.nonceOf [wCoin, wCoin] ≠ Offer.nonceOf [wCoin] := by
  exact ⟨by decide, by decide⟩

/-- C7 (amended): for any two duplicate-free coin lists equal as unordered
sets, `notarize_payments` derives the same nonce; every notarized payment in
the result of either call carries that nonce; and the nonce is the tree hash
of the canonical list form of the coins sorted by coin name. -/
theorem C7_nonce_determinism_amended (cl1 cl2 : List Coin)
    (rp1 rp2 : List (AssetKey × List Payment))
    (h1 : cl1.Nodup) (h2 : cl2.Nodup) (hset : ∀ c, c ∈ cl1 ↔ c ∈ cl2) :
    Offer.nonceOf cl1 = Offer.nonceOf cl2
    ∧ (∀ kv ∈ Offer.notarizePayments rp1 cl1, ∀ np ∈ kv.2, np.nonce = Offer.nonceOf cl1)
    ∧ (∀ kv ∈ Offer.notarizePayments rp2 cl2, ∀ np ∈ kv.2, np.nonce = Offer.nonceOf cl2)
    ∧ Offer.nonceOf cl1 =
        Program.treeHash (Program.ofList
          ((List.insertionSort coinNameLE cl1).map Coin.asList)) := by
  have hperm : cl1.Perm cl2 := (List.perm_ext_iff_of_nodup h1 h2).mpr hset
  have hsorted : List.insertionSort coinNameLE cl1 = List.insertionSort coinNameLE cl2 :=
    List.eq_of_perm_of_sorted
      (((List.perm_insertionSort coinNameLE cl1).trans hperm).trans
        (List.perm_insertionSort coinNameLE cl2).symm)
      (List.sorted_insertionSort coinNameLE cl1)
      (List.sorted_insertionSort coinNameLE cl2)
  exact ⟨by unfold Offer.nonceOf; rw [hsorted],
    notarizePayments_nonce rp1 cl1, notarizePayments_nonce rp2 cl2, rfl⟩

/-- C7 witness: the amended determinism applied to two concrete permuted
duplicate-free coin lists. -/
theorem C7_witness : Offer.nonceOf [wCoin, wCoin2] = Offer.nonceOf [wCoin2, wCoin] :=
  (C7_nonce_determinism_amended [wCoin, wCoin2] [wCoin2, wCoin] [] [] (by decide) (by decide)
    (by intro c; simp [List.mem_cons]; tauto)).1

/-! ### C9: notarize_payments mutates its argument in place -/

theorem map_eq_self {α : Type} {f : α → α} :
    ∀ {l : List α}, l.map f = l → ∀ x ∈ l, f x = x := by
  intro l
  induction l with
  | nil => intro _ x hx; cases hx
  | cons a t ih =>
    intro h x hx
    rw [List.map_cons, List.cons.injEq] at h
    rcases List.mem_cons.mp hx with rfl | hx2
    · exact h.1
    · exact ih h.2 x hx2

/-- C9: `notarize_payments` returns the very dict object it was handed, with
every key's payment list overwritten by the notarized list; consequently, if
any key held a plain (un-notarized) payment, the caller's original mapping no
longer holds its original contents. -/
theorem C9_notarize_payments_in_place (r : DictRef) (coins : List Coin) (h : ReqHeap)
    (contents : List (AssetKey × List PayObj)) (hr : dictGet? h r = some contents) :
    (Offer.notarizePaymentsRef r coins h).1 = r
    ∧ dictGet? (Offer.notarizePaymentsRef r coins h).2 r =
        some (contents.map fun kv =>
          (kv.1, kv.2.map fun p => PayObj.notarized ⟨p.fields, Offer.nonceOf coins⟩))
    ∧ ((∃ kv ∈ contents, ∃ p ∈ kv.2, ∃ q, p = PayObj.plain q) →
        dictGet? (Offer.notarizePaymentsRef r coins h).2 r ≠ some contents) := by
  have hget : dictGet? (Offer.notarizePaymentsRef r coins h).2 r =
      some (contents.map fun kv =>
        (kv.1, kv.2.map fun p => PayObj.notarized ⟨p.fields, Offer.nonceOf coins⟩)) := by
    show dictGet? (dictSet h r _) r = _
    rw [dictGet?_dictSet, if_pos rfl, hr]
    rfl
  refine ⟨rfl, hget, ?_⟩
  intro hex heq
  rw [hget] at heq
  have hmap := Option.some.inj heq
  obtain ⟨kv, hkv, p, hp, q, rfl⟩ := hex
  have hkv2 := map_eq_self hmap kv hkv
  obtain ⟨k0, l0⟩ := kv
  rw [Prod.mk.injEq] at hkv2
  have hp2 := map_eq_self hkv2.2 _ hp
  simp at hp2

/-- C9 witness: the in-place notarization applied at a concrete heap. -/
theorem C9_witness :
    (Offer.notarizePaymentsRef 1 [wCoin] [(1, [(none, [PayObj.plain ⟨77, 700, []⟩])])]).1 = 1 :=
  (C9_notarize_payments_in_place 1 [wCoin] [(1, [(none, [PayObj.plain ⟨77, 700, []⟩])])]
    [(none, [PayObj.plain ⟨77, 700, []⟩])] (by decide)).1

/-! ### C8: aggregation mutates its input offers (code bug) -/

/-- C8: evaluating `Offer.aggregate` at reference level on two offers that
share an asset key: aggregation succeeds, yet afterwards the payment-list
object of the FIRST input offer (heap reference 1) has been extended in place
with the second offer's payments, so the input offer did not stay unchanged. -/
theorem C8_aggregate_mutates_inputs :
    ((Offer.aggregateRef runLit [c8OfferRef1, c8OfferRef2] c8Heap).map
        fun oh => dictGet? oh.2 1) = Except.ok (some [wNp, c8Np2])
    ∧ dictGet? c8Heap 1 = some [wNp]
    ∧ [wNp, c8Np2] ≠ [wNp] := by
  exact ⟨by decide, by decide, by decide⟩

end ChiaOffer

namespace ChiaOffer

/-! ### C5: the shape of the surplus payment condition -/

/-- C5 counterexample: on the concrete offer `wOffer` (surplus 300), the
completion spend's condition list ends with the 4-element
`[Z32, puzzle_hash, amount, memos]` notarized shape — carrying the default
zero nonce — and not with the 3-element `Payment` shape the claim asserts. -/
theorem C5_counterexample :
    ((Offer.toValidSpend runLit wOffer 55).map fun sb =>
        sb.coin_spends.head?.map CoinSpend.solution)
      = Except.ok (some (Program.ofList [NotarizedPayment.asCondition wNp,
          Program.ofList [.atom Z32, .atom 55, .atom 300, Program.ofList []]]))
    ∧ Program.ofList [.atom Z32, .atom 55, .atom 300, Program.ofList []]
      ≠ Program.ofList [.atom 55, .atom 300, Program.ofList []] := by
  exact ⟨by decide, by decide⟩

/-- C5 (amended): for a strictly positive arbitrage amount, `to_valid_spend`
appends `NotarizedPayment(arbitrage_ph, amount)` whose `memos` and `nonce`
fields take their declared defaults `[]` and `ZERO_32`; the emitted condition
is therefore the `NotarizedPayment`-shaped `[Z32, puzzle_hash, amount, memos]`
list, which differs from the `Payment`-shaped `[puzzle_hash, amount, memos]`
list. -/
theorem C5_surplus_shape_amended (payments : List NotarizedPayment) (arb : Int) (ph : Hash)
    (hpos : 0 < arb) :
    allPaymentsFor payments arb ph = payments ++ [⟨⟨ph, arb.toNat, []⟩, Z32⟩]
    ∧ NotarizedPayment.asCondition ⟨⟨ph, arb.toNat, []⟩, Z32⟩ =
        Program.ofList [.atom Z32, .atom ph, .atom arb.toNat, Program.ofList []]
    ∧ NotarizedPayment.asCondition ⟨⟨ph, arb.toNat, []⟩, Z32⟩ ≠
        Program.ofList [.atom ph, .atom arb.toNat, Program.ofList []] := by
  refine ⟨by simp [allPaymentsFor, hpos], rfl, ?_⟩
  intro h
  simp [NotarizedPayment.asCondition, Payment.asConditionArgs, Program.ofList] at h

/-- C5 witness: the amended surplus shape at a concrete positive surplus. -/
theorem C5_witness :
    allPaymentsFor [wNp] 300 55 = [wNp] ++ [⟨⟨55, (300 : Int).toNat, []⟩, Z32⟩] :=
  (C5_surplus_shape_amended [wNp] 300 55 (by decide)).1

/-! ### C1: serialization round trip -/

theorem dictGet?_append {K V : Type} [DecidableEq K] (d1 d2 : List (K × V)) (k : K) :
    dictGet? (d1 ++ d2) k = ((dictGet? d1 k).orElse fun _ => dictGet? d2 k) := by
  induction d1 with
  | nil => simp [dictGet?_nil]
  | cons kv t ih =>
    by_cases h : kv.1 = k <;> simp [dictGet?_cons, h, ih, Option.orElse]

theorem fromBytesStep_dummy (acc : List (AssetKey × List NotarizedPayment) × List CoinSpend)
    (kv : AssetKey × List NotarizedPayment) :
    fromBytesStep acc (dummySpendFor kv) = .ok (dictSet acc.1 kv.1 kv.2, acc.2) := by
  obtain ⟨k, ps⟩ := kv
  cases k with
  | none =>
    simp [fromBytesStep, dummySpendFor, matchCatPuzzle_offerMod, Program.asIter_ofList,
      optionMapList_fromCondition_asCondition]
  | some t =>
    simp [fromBytesStep, dummySpendFor, matchCatPuzzle_construct, Program.asIter_ofList,
      optionMapList_fromCondition_asCondition]

theorem foldlM_fromBytesStep_dummies (entries : List (AssetKey × List NotarizedPayment)) :
    ∀ (acc1 : List (AssetKey × List NotarizedPayment)) (acc2 : List CoinSpend),
    (entries.map Prod.fst).Nodup → (∀ k ∈ entries.map Prod.fst, dictGet? acc1 k = none) →
    (entries.map dummySpendFor).foldlM fromBytesStep (acc1, acc2) =
      .ok (acc1 ++ entries, acc2) := by
  induction entries with
  | nil =>
    intro acc1 acc2 _ _
    simp only [List.map_nil, List.foldlM_nil, List.append_nil]
    rfl
  | cons kv t ih =>
    intro acc1 acc2 hnd hfresh
    rw [List.map_cons, List.foldlM_cons, fromBytesStep_dummy]
    have hfreshkv : dictGet? acc1 kv.1 = none := hfresh kv.1 (by simp)
    rw [List.map_cons, List.nodup_cons] at hnd
    have hstep : dictSet acc1 kv.1 kv.2 = acc1 ++ [(kv.1, kv.2)] :=
      dictSet_fresh_append acc1 kv.1 kv.2 hfreshkv
    have hfresh2 : ∀ k ∈ t.map Prod.fst, dictGet? (acc1 ++ [(kv.1, kv.2)]) k = none := by
      intro k hk
      rw [dictGet?_append, hfresh k (by simp [hk])]
      have hne : ¬ kv.1 = k := fun he => hnd.1 (he ▸ hk)
      simp [Option.orElse, dictGet?_cons, dictGet?_nil, hne]
    rw [hstep]
    show (t.map dummySpendFor).foldlM fromBytesStep (acc1 ++ [(kv.1, kv.2)], acc2) =
      Except.ok (acc1 ++ kv :: t, acc2)
    rw [ih (acc1 ++ [(kv.1, kv.2)]) acc2 hnd.2 hfresh2]
    simp [List.append_assoc]

theorem foldlM_fromBytesStep_real (spends : List CoinSpend) :
    ∀ (acc1 : List (AssetKey × List NotarizedPayment)) (acc2 : List CoinSpend),
    (∀ cs ∈ spends, cs.coin.parent_coin_info ≠ Z32) →
    spends.foldlM fromBytesStep (acc1, acc2) = .ok (acc1, acc2 ++ spends) := by
  induction spends with
  | nil =>
    intro acc1 acc2 _
    simp only [List.foldlM_nil, List.append_nil]
    rfl
  | cons cs t ih =>
    intro acc1 acc2 hz
    have hcs : ¬ cs.coin.parent_coin_info = Z32 := hz cs (by simp)
    rw [List.foldlM_cons]
    have hstep : fromBytesStep (acc1, acc2) cs = .ok (acc1, acc2 ++ [cs]) := by
      simp [fromBytesStep, hcs]
    rw [hstep]
    show t.foldlM fromBytesStep (acc1, acc2 ++ [cs]) = Except.ok (acc1, acc2 ++ cs :: t)
    rw [ih acc1 (acc2 ++ [cs]) (fun c hc => hz c (by simp [hc]))]
    simp [List.append_assoc]

/-- C1 counterexample: `cxOffer` is accepted by construction, yet decoding its
encoding does not return its own bundle — the bundle spend whose coin carries
the `Z32` parent sentinel is misread as a requested-payments dummy and
dropped from the decoded bundle. -/
theorem C1_counterexample :
    Offer.mk? runLit cxOffer.requested_payments cxOffer.bundle = .ok cxOffer
    ∧ (Offer.fromSpendBundle runLit cxOffer.toSpendBundle).map Offer.bundle ≠
        Except.ok cxOffer.bundle := by
  exact ⟨by decide, by decide⟩

/-- C1 (amended): for every offer accepted by construction NONE OF WHOSE
bundle spends has the `Z32` parent sentinel as its coin's parent, decoding the
encoding round-trips exactly: the decoded offer has the same
requested-payments mapping (hence equal per-key payment multisets) and the
same bundle. -/
theorem C1_roundtrip_amended (run : Program → Program → List (Hash × Nat)) (o : Offer)
    (hkeys : (o.requested_payments.map Prod.fst).Nodup)
    (hparents : ∀ cs ∈ o.bundle.coin_spends, cs.coin.parent_coin_info ≠ Z32)
    (haccepted : Offer.mk? run o.requested_payments o.bundle = .ok o) :
    Offer.fromSpendBundle run o.toSpendBundle = .ok o := by
  have hspends : o.toSpendBundle.coin_spends =
      (o.requested_payments.map dummySpendFor) ++ o.bundle.coin_spends := by
    simp [Offer.toSpendBundle, SpendBundle.aggregate]
  have hsig : o.toSpendBundle.aggregated_signature = o.bundle.aggregated_signature := by
    simp [Offer.toSpendBundle, SpendBundle.aggregate]
  have hfold : o.toSpendBundle.coin_spends.foldlM fromBytesStep ([], []) =
      .ok (o.requested_payments, o.bundle.coin_spends) := by
    rw [hspends, List.foldlM_append,
      foldlM_fromBytesStep_dummies o.requested_payments [] [] hkeys (by intro k _; rfl)]
    show o.bundle.coin_spends.foldlM fromBytesStep ([] ++ o.requested_payments, []) = _
    rw [foldlM_fromBytesStep_real o.bundle.coin_spends ([] ++ o.requested_payments) [] hparents]
    simp
  unfold Offer.fromSpendBundle
  rw [hfold]
  show Offer.mk? run o.requested_payments
    ⟨o.bundle.coin_spends, o.toSpendBundle.aggregated_signature⟩ = .ok o
  rw [hsig]
  exact haccepted

/-- C1 witness: the amended round trip at the concrete fixture offer. -/
theorem C1_witness : Offer.fromSpendBundle runLit wOffer.toSpendBundle = .ok wOffer :=
  C1_roundtrip_amended runLit wOffer (by decide) (by decide) (by decide)

end ChiaOffer

namespace ChiaOffer

/-! ### C4: aggregation -/

theorem dictGet?_eq_none_of_not_mem_keys {K V : Type} [DecidableEq K]
    {d : List (K × V)} {k : K} (h : k ∉ d.map Prod.fst) : dictGet? d k = none := by
  have h2 : ¬ dictContains d k = true := fun hc => h ((dictContains_iff_mem_keys d k).mp hc)
  unfold dictContains at h2
  simpa using h2

theorem sharesCoin_iff (sb1 sb2 : SpendBundle) :
    sharesCoin sb1 sb2 = true ↔ overlapProp sb1 sb2 := by
  unfold sharesCoin overlapProp inputCoins
  rw [List.any_eq_true]
  constructor
  · rintro ⟨cs, hcs, hin⟩
    rw [List.any_eq_true] at hin
    obtain ⟨cs2, hcs2, he⟩ := hin
    rw [decide_eq_true_iff] at he
    exact ⟨cs.coin, List.mem_map_of_mem CoinSpend.coin hcs,
      he ▸ List.mem_map_of_mem CoinSpend.coin hcs2⟩
  · rintro ⟨c, hc1, hc2⟩
    obtain ⟨cs, hcs, rfl⟩ := List.mem_map.mp hc1
    obtain ⟨cs2, hcs2, he2⟩ := List.mem_map.mp hc2
    refine ⟨cs, hcs, ?_⟩
    rw [List.any_eq_true]
    exact ⟨cs2, hcs2, decide_eq_true he2⟩

theorem mk?_ne_overlapping (run : Program → Program → List (Hash × Nat))
    (rp : List (AssetKey × List NotarizedPayment)) (sb : SpendBundle) :
    Offer.mk? run rp sb ≠ .error .OverlappingInputs := by
  unfold Offer.mk?
  by_cases h1 : Offer.getOfferedCoins run ⟨rp, sb⟩ = []
  · rw [if_pos h1]; simp
  · rw [if_neg h1]
    by_cases h2 : hasDuplicatePayments rp = true
    · rw [if_pos h2]; simp
    · rw [if_neg h2]; simp

theorem mk?_ok_eq {run : Program → Program → List (Hash × Nat)}
    {rp : List (AssetKey × List NotarizedPayment)} {sb : SpendBundle} {o : Offer}
    (h : Offer.mk? run rp sb = .ok o) : o = ⟨rp, sb⟩ := by
  unfold Offer.mk? at h
  by_cases h1 : Offer.getOfferedCoins run ⟨rp, sb⟩ = []
  · rw [if_pos h1] at h; cases h
  · rw [if_neg h1] at h
    by_cases h2 : hasDuplicatePayments rp = true
    · rw [if_pos h2] at h; cases h
    · rw [if_neg h2] at h
      exact (Except.ok.inj h).symm

theorem aggregateLoop_error_iff (offers : List Offer) :
    ∀ (total : List (AssetKey × List NotarizedPayment)) (sb : SpendBundle),
    (Offer.aggregateLoop offers total sb = .error .OverlappingInputs ↔
      (∃ o ∈ offers, overlapProp sb o.bundle) ∨
        ¬ offers.Pairwise fun o1 o2 => ¬ overlapProp o1.bundle o2.bundle) := by
  induction offers with
  | nil =>
    intro total sb
    simp [Offer.aggregateLoop]
  | cons o rest ih =>
    intro total sb
    unfold Offer.aggregateLoop
    by_cases hs : sharesCoin sb o.bundle
    · rw [if_pos hs]
      refine iff_of_true rfl (Or.inl ⟨o, by simp, (sharesCoin_iff sb o.bundle).mp hs⟩)
    · rw [if_neg hs, ih]
      have hno : ¬ overlapProp sb o.bundle :=
        fun hov => hs ((sharesCoin_iff sb o.bundle).mpr hov)
      have hagg : inputCoins (SpendBundle.aggregate [sb, o.bundle]) =
          inputCoins sb ++ inputCoins o.bundle := by
        simp [SpendBundle.aggregate, inputCoins]
      constructor
      · rintro (⟨o2, ho2, hov⟩ | hnp)
        · obtain ⟨c, hc1, hc2⟩ := hov
          rw [hagg, List.mem_append] at hc1
          rcases hc1 with h | h
          · exact Or.inl ⟨o2, List.mem_cons_of_mem o ho2, c, h, hc2⟩
          · refine Or.inr fun hpw => ?_
            rw [List.pairwise_cons] at hpw
            exact hpw.1 o2 ho2 ⟨c, h, hc2⟩
        · refine Or.inr fun hpw => ?_
          rw [List.pairwise_cons] at hpw
          exact hnp hpw.2
      · rintro (⟨o2, ho2, hov⟩ | hnp)
        · rcases List.mem_cons.mp ho2 with rfl | ho2t
          · exact absurd hov hno
          · obtain ⟨c, hc1, hc2⟩ := hov
            exact Or.inl ⟨o2, ho2t, c, by rw [hagg, List.mem_append]; exact Or.inl hc1, hc2⟩
        · by_cases hpw : rest.Pairwise fun o1 o2 => ¬ overlapProp o1.bundle o2.bundle
          · have hex : ¬ ∀ b ∈ rest, ¬ overlapProp o.bundle b.bundle := by
              intro hall
              exact hnp (List.pairwise_cons.mpr ⟨hall, hpw⟩)
            push_neg at hex
            obtain ⟨b, hb, hov⟩ := hex
            obtain ⟨c, hc1, hc2⟩ := hov
            exact Or.inl ⟨b, hb, c, by rw [hagg, List.mem_append]; exact Or.inr hc1, hc2⟩
          · exact Or.inr hpw

theorem mergeRequestedPayments_get :
    ∀ (rp total : List (AssetKey × List NotarizedPayment)) (k : AssetKey),
    (rp.map Prod.fst).Nodup →
    dictGet? (mergeRequestedPayments total rp) k =
      (match dictGet? rp k with
       | some l => some ((dictGet? total k).getD [] ++ l)
       | none => dictGet? total k) := by
  intro rp
  induction rp with
  | nil => intro total k _; rfl
  | cons kv t ih =>
    intro total k hnd
    rw [List.map_cons, List.nodup_cons] at hnd
    have hfold : mergeRequestedPayments total (kv :: t) =
        mergeRequestedPayments
          (match dictGet? total kv.1 with
           | some l => dictSet total kv.1 (l ++ kv.2)
           | none => dictSet total kv.1 kv.2) t := by
      rfl
    have hone : ∀ k2, dictGet?
        (match dictGet? total kv.1 with
         | some l => dictSet total kv.1 (l ++ kv.2)
         | none => dictSet total kv.1 kv.2) k2 =
        if k2 = kv.1 then some ((dictGet? total kv.1).getD [] ++ kv.2)
        else dictGet? total k2 := by
      intro k2
      cases hg : dictGet? total kv.1 with
      | none => simp [dictGet?_dictSet, hg]
      | some l =>
        rw [dictGet?_dictSet]
        by_cases h2 : k2 = kv.1
        · subst h2; rw [if_pos rfl, if_pos rfl]; rfl
        · rw [if_neg h2, if_neg h2]
    rw [hfold, ih _ k hnd.2]
    by_cases hk : k = kv.1
    · subst hk
      have htk : dictGet? t kv.1 = none :=
        dictGet?_eq_none_of_not_mem_keys hnd.1
      simp [htk, hone kv.1, dictGet?_cons]
    · have hck : dictGet? (kv :: t) k = dictGet? t k := by
        rw [dictGet?_cons, if_neg (fun h => hk h.symm)]
      rw [hck]
      cases hg : dictGet? t k with
      | none => simp [hone k, hk]
      | some l => simp [hone k, hk]

theorem aggregateLoop_ok_spec :
    ∀ (offers : List Offer) (total : List (AssetKey × List NotarizedPayment))
      (sb : SpendBundle) (rp2 : List (AssetKey × List NotarizedPayment)) (sb2 : SpendBundle),
    (∀ o ∈ offers, (o.requested_payments.map Prod.fst).Nodup) →
    Offer.aggregateLoop offers total sb = .ok (rp2, sb2) →
    sb2.coin_spends = sb.coin_spends ++ (offers.map fun o => o.bundle.coin_spends).flatten
    ∧ sb2.aggregated_signature = sb.aggregated_signature ++
        (offers.map fun o => o.bundle.aggregated_signature).flatten
    ∧ ∀ k, dictGet? rp2 k =
        offers.foldl (fun acc o =>
          match dictGet? o.requested_payments k with
          | some l => some (acc.getD [] ++ l)
          | none => acc) (dictGet? total k) := by
  intro offers
  induction offers with
  | nil =>
    intro total sb rp2 sb2 _ h
    obtain ⟨h1, h2⟩ := Prod.mk.injEq _ _ _ _ ▸ Except.ok.inj h
    subst h1; subst h2
    exact ⟨by simp, by simp, fun k => rfl⟩
  | cons o rest ih =>
    intro total sb rp2 sb2 hwf h
    unfold Offer.aggregateLoop at h
    by_cases hs : sharesCoin sb o.bundle
    · rw [if_pos hs] at h; cases h
    · rw [if_neg hs] at h
      have hrec := ih (mergeRequestedPayments total o.requested_payments)
        (SpendBundle.aggregate [sb, o.bundle]) rp2 sb2
        (fun o2 ho2 => hwf o2 (List.mem_cons_of_mem o ho2)) h
      have hsp : (SpendBundle.aggregate [sb, o.bundle]).coin_spends =
          sb.coin_spends ++ o.bundle.coin_spends := by
        simp [SpendBundle.aggregate]
      have hsg : (SpendBundle.aggregate [sb, o.bundle]).aggregated_signature =
          sb.aggregated_signature ++ o.bundle.aggregated_signature := by
        simp [SpendBundle.aggregate]
      refine ⟨?_, ?_, ?_⟩
      · rw [hrec.1, hsp]; simp [List.append_assoc]
      · rw [hrec.2.1, hsg]; simp [List.append_assoc]
      · intro k
        rw [hrec.2.2 k, List.foldl_cons,
          mergeRequestedPayments_get o.requested_payments total k (hwf o (by simp))]

theorem optfold_contribs (k : AssetKey) :
    ∀ (offers : List Offer) (x : Option (List NotarizedPayment)),
    offers.foldl (fun acc o =>
        match dictGet? o.requested_payments k with
        | some l => some (acc.getD [] ++ l)
        | none => acc) x =
      (if (offers.filterMap fun o => dictGet? o.requested_payments k) = [] then x
       else some (x.getD [] ++
         (offers.filterMap fun o => dictGet? o.requested_payments k).flatten)) := by
  intro offers
  induction offers with
  | nil => intro x; simp
  | cons o rest ih =>
    intro x
    cases hg : dictGet? o.requested_payments k with
    | none =>
      have hfm : (List.filterMap (fun o2 => dictGet? o2.requested_payments k) (o :: rest)) =
          List.filterMap (fun o2 => dictGet? o2.requested_payments k) rest := by
        rw [List.filterMap_cons]; simp [hg]
      simp only [List.foldl_cons, hg]
      rw [ih x, hfm]
    | some l =>
      have hfm : (List.filterMap (fun o2 => dictGet? o2.requested_payments k) (o :: rest)) =
          l :: List.filterMap (fun o2 => dictGet? o2.requested_payments k) rest := by
        rw [List.filterMap_cons]; simp [hg]
      simp only [List.foldl_cons, hg]
      rw [ih (some (x.getD [] ++ l)), hfm]
      by_cases hrest : (rest.filterMap fun o2 => dictGet? o2.requested_payments k) = []
      · rw [if_pos hrest, hrest, if_neg (by simp)]
        simp
      · rw [if_neg hrest, if_neg (by simp)]
        simp [List.append_assoc]

/-- C4 counterexample: the empty offer list has (vacuously) pairwise-disjoint
input coin sets, yet `aggregate` does not return an Offer: the final
construction rejects the empty aggregate with `EmptyOffer`. -/
theorem C4_counterexample : Offer.aggregate runLit [] = .error .EmptyOffer := by decide

/-- C4 (amended): `aggregate` fails with `OverlappingInputs` iff some input
coin is spent by the bundles of two distinct offers of the list; and whenever
it succeeds (in particular the final construction's own `EmptyOffer` and
`DuplicatePayment` checks pass — which can fail even for pairwise-disjoint
inputs, e.g. the empty list), the resulting bundle spends are the
concatenation of the inputs' spends (with concatenated signatures), and the
requested payments for each asset key are the concatenation, in input order,
of the inputs' payment lists for that key. -/
theorem C4_aggregate_amended (run : Program → Program → List (Hash × Nat))
    (offers : List Offer)
    (hwf : ∀ o ∈ offers, (o.requested_payments.map Prod.fst).Nodup) :
    (Offer.aggregate run offers = .error .OverlappingInputs ↔
      ¬ offers.Pairwise fun o1 o2 => ¬ overlapProp o1.bundle o2.bundle)
    ∧ ∀ o2, Offer.aggregate run offers = .ok o2 →
        (o2.bundle.coin_spends = (offers.map fun o => o.bundle.coin_spends).flatten
        ∧ o2.bundle.aggregated_signature =
            (offers.map fun o => o.bundle.aggregated_signature).flatten
        ∧ ∀ k, dictGet? o2.requested_payments k =
            (if (offers.filterMap fun o => dictGet? o.requested_payments k) = [] then none
             else some
               ((offers.filterMap fun o => dictGet? o.requested_payments k).flatten))) := by
  have hloopiff : (Offer.aggregateLoop offers [] ⟨[], []⟩ = .error .OverlappingInputs ↔
      ¬ offers.Pairwise fun o1 o2 => ¬ overlapProp o1.bundle o2.bundle) := by
    rw [aggregateLoop_error_iff offers [] ⟨[], []⟩]
    have hempty : ∀ o ∈ offers, ¬ overlapProp (⟨[], []⟩ : SpendBundle) o.bundle := by
      rintro o _ ⟨c, hc, _⟩
      simp [inputCoins] at hc
    constructor
    · rintro (⟨o, ho, hov⟩ | h)
      · exact absurd hov (hempty o ho)
      · exact h
    · exact Or.inr
  constructor
  · rw [← hloopiff]
    constructor
    · intro hagg
      unfold Offer.aggregate at hagg
      cases hloop : Offer.aggregateLoop offers [] ⟨[], []⟩ with
      | error e =>
        rw [hloop] at hagg
        simpa using hagg
      | ok pr =>
        rw [hloop] at hagg
        exact absurd hagg (mk?_ne_overlapping run pr.1 pr.2)
    · intro hloop
      unfold Offer.aggregate
      rw [hloop]
  · intro o2 hagg
    unfold Offer.aggregate at hagg
    cases hloop : Offer.aggregateLoop offers [] ⟨[], []⟩ with
    | error e => rw [hloop] at hagg; cases hagg
    | ok pr =>
      rw [hloop] at hagg
      have ho2 : o2 = ⟨pr.1, pr.2⟩ := mk?_ok_eq hagg
      have hspec := aggregateLoop_ok_spec offers [] ⟨[], []⟩ pr.1 pr.2 hwf (by rw [hloop])
      subst ho2
      refine ⟨by rw [hspec.1]; rfl, by rw [hspec.2.1]; rfl, ?_⟩
      intro k
      have h3 := hspec.2.2 k
      rw [optfold_contribs k offers (dictGet? ([] : List (AssetKey × List NotarizedPayment)) k)]
        at h3
      rw [h3, dictGet?_nil]
      by_cases hc : (offers.filterMap fun o => dictGet? o.requested_payments k) = []
      · rw [if_pos hc, if_pos hc]
      · rw [if_neg hc, if_neg hc]
        rfl

/-- C4 witness: aggregating an offer with itself shares its input coin, so by
the amended characterization it fails with `OverlappingInputs` (the spec's
overlap-rejection scenario). -/
theorem C4_witness : Offer.aggregate runLit [wOffer, wOffer] = .error .OverlappingInputs :=
  (C4_aggregate_amended runLit [wOffer, wOffer] (by decide)).1.mpr (by
    intro hpw
    rw [List.pairwise_cons] at hpw
    exact hpw.1 wOffer (by simp) ⟨wCoin, by decide, by decide⟩)

end ChiaOffer

namespace ChiaOffer

/-! ### C6: validity monotonicity of aggregation -/

theorem additions_append (run : Program → Program → List (Hash × Nat))
    (sb1 sb2 : SpendBundle) :
    (SpendBundle.aggregate [sb1, sb2]).additions run =
      sb1.additions run ++ sb2.additions run := by
  simp [SpendBundle.aggregate, SpendBundle.additions]

theorem additions_parent_mem (run : Program → Program → List (Hash × Nat))
    (sb : SpendBundle) (a : Coin) (ha : a ∈ sb.additions run) :
    ∃ cs ∈ sb.coin_spends, cs.coin.name = a.parent_coin_info := by
  unfold SpendBundle.additions at ha
  rw [List.mem_flatten] at ha
  obtain ⟨l, hl, hal⟩ := ha
  obtain ⟨cs, hcs, rfl⟩ := List.mem_map.mp hl
  unfold CoinSpend.additions at hal
  obtain ⟨pa, _, rfl⟩ := List.mem_map.mp hal
  exact ⟨cs, hcs, rfl⟩

theorem find?_parent_isSome (spends : List CoinSpend) (a : Coin)
    (h : ∃ cs ∈ spends, cs.coin.name = a.parent_coin_info) :
    (spends.find? fun cs => cs.coin.name = a.parent_coin_info).isSome := by
  rw [List.find?_isSome]
  obtain ⟨cs, hcs, he⟩ := h
  exact ⟨cs, hcs, decide_eq_true he⟩

theorem classifyAddition_append_left (s1 s2 : List CoinSpend) (a : Coin)
    (hfind : (s1.find? fun cs => cs.coin.name = a.parent_coin_info).isSome) :
    classifyAddition (s1 ++ s2) a = classifyAddition s1 a := by
  unfold classifyAddition
  rw [List.find?_append]
  obtain ⟨cs, hcs⟩ := Option.isSome_iff_exists.mp hfind
  rw [hcs]
  rfl

theorem classifyAddition_append_right (s1 s2 : List CoinSpend) (a : Coin)
    (hnone : s1.find? (fun cs => cs.coin.name = a.parent_coin_info) = none) :
    classifyAddition (s1 ++ s2) a = classifyAddition s2 a := by
  unfold classifyAddition
  rw [List.find?_append, hnone]
  rfl

theorem find?_parent_none_of_disjoint (s1 s2 : List CoinSpend) (a : Coin)
    (hdisj : ∀ c ∈ s1.map CoinSpend.coin, c ∉ s2.map CoinSpend.coin)
    (h2 : ∃ cs ∈ s2, cs.coin.name = a.parent_coin_info) :
    s1.find? (fun cs => cs.coin.name = a.parent_coin_info) = none := by
  rw [List.find?_eq_none]
  intro cs1 hcs1
  rw [decide_eq_true_iff]
  intro he1
  obtain ⟨cs2, hcs2, he2⟩ := h2
  have hco : cs1.coin = cs2.coin := Coin.name_injective (he1.trans he2.symm)
  exact hdisj cs1.coin (List.mem_map_of_mem CoinSpend.coin hcs1)
    (hco ▸ List.mem_map_of_mem CoinSpend.coin hcs2)

theorem dictAppend_amtAt (d : List (AssetKey × List Coin)) (k k2 : AssetKey) (a : Coin) :
    (((dictGet? (dictAppend d k2 a) k).getD []).map Coin.amount).sum =
      (((dictGet? d k).getD []).map Coin.amount).sum + (if k = k2 then a.amount else 0) := by
  unfold dictAppend
  cases hg : dictGet? d k2 with
  | some l =>
    rw [dictGet?_dictSet]
    by_cases h : k = k2
    · subst h; rw [if_pos rfl, if_pos rfl, hg]; simp
    · rw [if_neg h, if_neg h]; simp
  | none =>
    rw [dictGet?_dictSet]
    by_cases h : k = k2
    · subst h; rw [if_pos rfl, if_pos rfl, hg]; simp
    · rw [if_neg h, if_neg h]; simp

theorem offeredFold_amtAt (spends : List CoinSpend) (k : AssetKey) :
    ∀ (A : List Coin) (d : List (AssetKey × List Coin)),
    (((dictGet? (A.foldl (fun d2 a =>
        match classifyAddition spends a with
        | some k2 => dictAppend d2 k2 a
        | none => d2) d) k).getD []).map Coin.amount).sum =
      (((dictGet? d k).getD []).map Coin.amount).sum +
        (A.map fun a => if classifyAddition spends a = some k then a.amount else 0).sum := by
  intro A
  induction A with
  | nil => intro d; simp
  | cons a t ih =>
    intro d
    rw [List.foldl_cons]
    cases hc : classifyAddition spends a with
    | none =>
      simp only [hc]
      rw [ih d]
      simp [hc]
    | some k2 =>
      simp only [hc]
      rw [ih (dictAppend d k2 a), dictAppend_amtAt d k k2 a]
      by_cases hk : k = k2
      · subst hk
        simp only [hc, List.map_cons, List.sum_cons, if_pos rfl]
        omega
      · have hne : ¬ classifyAddition spends a = some k := by
          rw [hc]
          intro h
          exact hk (Option.some.inj h).symm
        simp only [hk, hne, List.map_cons, List.sum_cons, if_neg, ite_false]
        omega

theorem offAmtD_eq_sum (run : Program → Program → List (Hash × Nat)) (sb : SpendBundle)
    (k : AssetKey) :
    offAmtD run sb k =
      ((sb.additions run).map fun a =>
        if classifyAddition sb.coin_spends a = some k then a.amount else 0).sum := by
  unfold offAmtD offeredCoinsOf
  rw [offeredFold_amtAt sb.coin_spends k (sb.additions run) []]
  simp [dictGet?_nil]

theorem offAmtD_append (run : Program → Program → List (Hash × Nat)) (sb1 sb2 : SpendBundle)
    (hdisj : ¬ overlapProp sb1 sb2) (k : AssetKey) :
    offAmtD run (SpendBundle.aggregate [sb1, sb2]) k =
      offAmtD run sb1 k + offAmtD run sb2 k := by
  have hspends : (SpendBundle.aggregate [sb1, sb2]).coin_spends =
      sb1.coin_spends ++ sb2.coin_spends := by
    simp [SpendBundle.aggregate]
  have hdisj2 : ∀ c ∈ sb1.coin_spends.map CoinSpend.coin,
      c ∉ sb2.coin_spends.map CoinSpend.coin := by
    intro c hc1 hc2
    exact hdisj ⟨c, hc1, hc2⟩
  rw [offAmtD_eq_sum, additions_append, hspends]
  have h1 : ∀ a ∈ sb1.additions run,
      (if classifyAddition (sb1.coin_spends ++ sb2.coin_spends) a = some k
       then a.amount else 0) =
      (if classifyAddition sb1.coin_spends a = some k then a.amount else 0) := by
    intro a ha
    rw [classifyAddition_append_left sb1.coin_spends sb2.coin_spends a
      (find?_parent_isSome sb1.coin_spends a (additions_parent_mem run sb1 a ha))]
  have h2 : ∀ a ∈ sb2.additions run,
      (if classifyAddition (sb1.coin_spends ++ sb2.coin_spends) a = some k
       then a.amount else 0) =
      (if classifyAddition sb2.coin_spends a = some k then a.amount else 0) := by
    intro a ha
    rw [classifyAddition_append_right sb1.coin_spends sb2.coin_spends a
      (find?_parent_none_of_disjoint sb1.coin_spends sb2.coin_spends a hdisj2
        (additions_parent_mem run sb2 a ha))]
  rw [List.map_append, List.sum_append, List.map_congr_left h1, List.map_congr_left h2,
    ← offAmtD_eq_sum, ← offAmtD_eq_sum]

end ChiaOffer

namespace ChiaOffer

theorem offeredAmounts_ok_getD (run : Program → Program → List (Hash × Nat)) (o : Offer)
    (offered : List (AssetKey × Nat)) (hok : o.getOfferedAmounts run = .ok offered)
    (k : AssetKey) :
    (dictGet? offered k).getD 0 = offAmtD run o.bundle k := by
  rw [offeredAmounts_ok_eq_map run o offered hok,
    dictGet?_map_values (o.getOfferedCoins run) (fun l => (l.map Coin.amount).sum) k]
  show ((dictGet? (offeredCoinsOf run o.bundle) k).map fun l => (l.map Coin.amount).sum).getD 0
    = _
  unfold offAmtD
  cases dictGet? (offeredCoinsOf run o.bundle) k <;> simp

theorem requestedAmounts_ok_getD (o : Offer) (requested : List (AssetKey × Nat))
    (hok : o.getRequestedAmounts = .ok requested) (k : AssetKey) :
    (dictGet? requested k).getD 0 = reqAmtD o.requested_payments k := by
  rw [requestedAmounts_ok_eq_map o requested hok,
    dictGet?_map_values o.requested_payments (fun l => (l.map fun np => np.amount).sum) k]
  unfold reqAmtD
  cases dictGet? o.requested_payments k <;> simp

theorem isValid_pointwise (run : Program → Program → List (Hash × Nat)) (o : Offer)
    (hv : o.isValid run = .ok true) (k : AssetKey) :
    reqAmtD o.requested_payments k ≤ offAmtD run o.bundle k := by
  obtain ⟨arb, harb, hall⟩ := isValid_ok_true_elim run o hv
  obtain ⟨offered, requested, hoffok, hreqok, harbeq⟩ := arbitrage_ok_elim run o arb harb
  by_cases hm : k ∈ (requested.map Prod.fst) ++ (offered.map Prod.fst)
  · have hget := arbDict_get offered requested k
    rw [if_pos hm, ← harbeq] at hget
    have hval := hall _ (dictGet?_eq_some_mem hget)
    simp only at hval
    rw [offeredAmounts_ok_getD run o offered hoffok k,
      requestedAmounts_ok_getD o requested hreqok k] at hval
    omega
  · rw [List.mem_append] at hm
    push_neg at hm
    have hnone : dictGet? requested k = none :=
      dictGet?_eq_none_of_not_mem_keys hm.1
    have hzero : reqAmtD o.requested_payments k = 0 := by
      rw [← requestedAmounts_ok_getD o requested hreqok k, hnone]
      rfl
    rw [hzero]
    exact Nat.zero_le _

theorem reqAmtD_merge (total rp : List (AssetKey × List NotarizedPayment))
    (hnd : (rp.map Prod.fst).Nodup) (k : AssetKey) :
    reqAmtD (mergeRequestedPayments total rp) k = reqAmtD total k + reqAmtD rp k := by
  unfold reqAmtD
  rw [mergeRequestedPayments_get rp total k hnd]
  cases hg : dictGet? rp k with
  | none => simp
  | some l => simp

theorem aggregateLoop_valid_invariant (run : Program → Program → List (Hash × Nat)) :
    ∀ (offers : List Offer) (total : List (AssetKey × List NotarizedPayment))
      (sb : SpendBundle) (rp2 : List (AssetKey × List NotarizedPayment)) (sb2 : SpendBundle),
    (∀ o ∈ offers, (o.requested_payments.map Prod.fst).Nodup) →
    (∀ o ∈ offers, o.isValid run = .ok true) →
    (∀ k, reqAmtD total k ≤ offAmtD run sb k) →
    Offer.aggregateLoop offers total sb = .ok (rp2, sb2) →
    ∀ k, reqAmtD rp2 k ≤ offAmtD run sb2 k := by
  intro offers
  induction offers with
  | nil =>
    intro total sb rp2 sb2 _ _ hinv h
    obtain ⟨h1, h2⟩ := Prod.mk.injEq _ _ _ _ ▸ Except.ok.inj h
    subst h1; subst h2
    exact hinv
  | cons o rest ih =>
    intro total sb rp2 sb2 hwf hval hinv h
    unfold Offer.aggregateLoop at h
    by_cases hs : sharesCoin sb o.bundle
    · rw [if_pos hs] at h; cases h
    · rw [if_neg hs] at h
      have hdisj : ¬ overlapProp sb o.bundle :=
        fun hov => hs ((sharesCoin_iff sb o.bundle).mpr hov)
      refine ih (mergeRequestedPayments total o.requested_payments)
        (SpendBundle.aggregate [sb, o.bundle]) rp2 sb2
        (fun o2 ho2 => hwf o2 (List.mem_cons_of_mem o ho2))
        (fun o2 ho2 => hval o2 (List.mem_cons_of_mem o ho2)) ?_ h
      intro k
      rw [reqAmtD_merge total o.requested_payments (hwf o (by simp)) k,
        offAmtD_append run sb o.bundle hdisj k]
      exact Nat.add_le_add (hinv k) (isValid_pointwise run o (hval o (by simp)) k)

/-- C6 counterexample: `o63a` and `o63b` are individually valid and their
input coins are disjoint, their aggregation succeeds, yet the aggregate's
`is_valid()` raises the `uint64` `Overflow` error (its native offered sum is
`2^64`) instead of returning true. -/
theorem C6_counterexample :
    o63a.isValid runLit = .ok true
    ∧ o63b.isValid runLit = .ok true
    ∧ sharesCoin o63a.bundle o63b.bundle = false
    ∧ Offer.aggregate runLit [o63a, o63b] = .ok c6AggOffer
    ∧ c6AggOffer.isValid runLit = .error .Overflow := by
  exact ⟨by decide, by decide, by decide, by decide, by decide⟩

/-- C6 (amended): if every offer in the input list is individually valid
(`is_valid()` returns true) and their input coin sets are pairwise disjoint,
then whenever `aggregate` returns an offer whose per-asset offered and
requested sums fit in uint64 (both amount views return), that offer's
`is_valid()` also returns true.  Without the uint64 proviso `is_valid()` can
raise `Overflow` instead (see the counterexample). -/
theorem C6_validity_monotonic_amended (run : Program → Program → List (Hash × Nat))
    (offers : List Offer) (o2 : Offer) (offered2 requested2 : List (AssetKey × Nat))
    (hwf : ∀ o ∈ offers, (o.requested_payments.map Prod.fst).Nodup)
    (hdisj : offers.Pairwise fun oa ob => ¬ overlapProp oa.bundle ob.bundle)
    (hvalid : ∀ o ∈ offers, o.isValid run = .ok true)
    (hagg : Offer.aggregate run offers = .ok o2)
    (hoff2 : o2.getOfferedAmounts run = .ok offered2)
    (hreq2 : o2.getRequestedAmounts = .ok requested2) :
    o2.isValid run = .ok true := by
  clear hdisj
  unfold Offer.aggregate at hagg
  cases hloop : Offer.aggregateLoop offers [] ⟨[], []⟩ with
  | error e => rw [hloop] at hagg; cases hagg
  | ok pr =>
    rw [hloop] at hagg
    have ho2 : o2 = ⟨pr.1, pr.2⟩ := mk?_ok_eq hagg
    subst ho2
    have hinv := aggregateLoop_valid_invariant run offers [] ⟨[], []⟩ pr.1 pr.2 hwf hvalid
      (fun k => by
        show reqAmtD [] k ≤ _
        unfold reqAmtD
        rw [dictGet?_nil]
        exact Nat.zero_le _)
      (by rw [hloop])
    have harb := arbitrage_ok_intro run ⟨pr.1, pr.2⟩ offered2 requested2 hoff2 hreq2
    unfold Offer.isValid
    rw [harb]
    have hall : ((arbDict offered2 requested2).all fun kv => decide (0 ≤ kv.2)) = true := by
      rw [List.all_eq_true]
      intro kv hkv
      have hval := mem_foldl_dictSet
        (fun k => (((dictGet? offered2 k).getD 0 : Nat) : Int) -
          (((dictGet? requested2 k).getD 0 : Nat) : Int))
        ((requested2.map Prod.fst) ++ (offered2.map Prod.fst))
        [] (by intro kv2 h2; cases h2) kv hkv
      refine decide_eq_true ?_
      rw [hval]
      beta_reduce
      have e1 : offAmtD run (Offer.mk pr.1 pr.2).bundle kv.1 = offAmtD run pr.2 kv.1 := rfl
      have e2 : reqAmtD (Offer.mk pr.1 pr.2).requested_payments kv.1 =
        reqAmtD pr.1 kv.1 := rfl
      rw [offeredAmounts_ok_getD run ⟨pr.1, pr.2⟩ offered2 hoff2 kv.1,
        requestedAmounts_ok_getD ⟨pr.1, pr.2⟩ requested2 hreq2 kv.1, e1, e2]
      have hle := hinv kv.1
      omega
    show Except.ok ((arbDict offered2 requested2).all fun kv => decide (0 ≤ kv.2)) =
      Except.ok true
    rw [hall]

/-- C6 witness: the amended monotonicity applied to the singleton list of the
concrete valid fixture offer, whose aggregate amount views are in range. -/
theorem C6_witness : (Offer.mk (wOffer.requested_payments)
    (SpendBundle.mk ([] ++ wOffer.bundle.coin_spends)
      ([] ++ wOffer.bundle.aggregated_signature))).isValid runLit = .ok true := by
  refine C6_validity_monotonic_amended runLit [wOffer] _ [(none, 1000)] [(none, 700)]
    (by decide) ?_ (by decide) (by decide) (by decide) (by decide)
  exact List.pairwise_singleton _ _

end ChiaOffer

namespace ChiaOffer

/-! ### C10: totality of to_valid_spend -/

theorem offeredFold_classify (spends : List CoinSpend) :
    ∀ (A : List Coin) (d : List (AssetKey × List Coin)),
    (∀ kv ∈ d, ∀ c ∈ kv.2, classifyAddition spends c = some kv.1) →
    ∀ kv ∈ A.foldl (fun d2 a =>
        match classifyAddition spends a with
        | some k2 => dictAppend d2 k2 a
        | none => d2) d,
      ∀ c ∈ kv.2, classifyAddition spends c = some kv.1 := by
  intro A
  induction A with
  | nil => intro d hd; exact hd
  | cons a t ih =>
    intro d hd
    rw [List.foldl_cons]
    cases hc : classifyAddition spends a with
    | none =>
      simp only [hc]
      exact ih d hd
    | some k2 =>
      simp only [hc]
      refine ih (dictAppend d k2 a) ?_
      intro kv hkv c hc2
      unfold dictAppend at hkv
      cases hg : dictGet? d k2 with
      | some l =>
        rw [hg] at hkv
        rcases mem_dictSet hkv with hin | heq
        · exact hd kv hin c hc2
        · rw [heq] at hc2 ⊢
          rcases List.mem_append.mp hc2 with hcl | hca
          · exact hd (k2, l) (dictGet?_eq_some_mem hg) c hcl
          · rw [List.mem_singleton] at hca
            subst hca
            exact hc
      | none =>
        rw [hg] at hkv
        rcases mem_dictSet hkv with hin | heq
        · exact hd kv hin c hc2
        · rw [heq] at hc2 ⊢
          rw [List.mem_singleton] at hc2
          subst hc2
          exact hc

theorem offeredCoins_classify (run : Program → Program → List (Hash × Nat))
    (sb : SpendBundle) :
    ∀ kv ∈ offeredCoinsOf run sb, ∀ c ∈ kv.2,
      classifyAddition sb.coin_spends c = some kv.1 :=
  offeredFold_classify sb.coin_spends (sb.additions run) [] (by intro kv h; cases h)

theorem completionStep_ok (run : Program → Program → List (Hash × Nat)) (o : Offer)
    (k : AssetKey) (offeredCoins : List Coin) (allP : List NotarizedPayment) (coin : Coin)
    (hcl : classifyAddition o.bundle.coin_spends coin = some k) :
    ∀ spends, ∃ out, completionStep run o k offeredCoins allP spends coin = .ok out := by
  intro spends
  cases k with
  | none => exact ⟨_, rfl⟩
  | some t =>
    unfold classifyAddition at hcl
    cases hfind : o.bundle.coin_spends.find?
        fun cs => cs.coin.name = coin.parent_coin_info with
    | none => rw [hfind] at hcl; cases hcl
    | some parent =>
      simp only [hfind] at hcl
      cases hmc : matchCatPuzzle parent.puzzle_reveal with
      | none =>
        simp only [hmc] at hcl
        by_cases hph : coin.puzzle_hash = OFFER_MOD.treeHash
        · rw [if_pos hph] at hcl; simp at hcl
        · rw [if_neg hph] at hcl; cases hcl
      | some triple =>
        simp only [completionStep, hfind, hmc]
        exact ⟨_, rfl⟩

theorem foldlM_ok_of_steps {α β ε : Type} (f : β → α → Except ε β) :
    ∀ (l : List α), (∀ a ∈ l, ∀ b, ∃ b2, f b a = .ok b2) →
    ∀ (b : β), ∃ b2, l.foldlM f b = .ok b2 := by
  intro l
  induction l with
  | nil => intro _ b; exact ⟨b, rfl⟩
  | cons a t ih =>
    intro h b
    obtain ⟨b2, hb2⟩ := h a (by simp) b
    rw [List.foldlM_cons, hb2]
    obtain ⟨b3, hb3⟩ := ih (fun a2 ha2 => h a2 (List.mem_cons_of_mem a ha2)) b2
    exact ⟨b3, hb3⟩

theorem toValidSpendKey_ok (run : Program → Program → List (Hash × Nat)) (o : Offer)
    (ph : Hash) (k : AssetKey) (payments : List NotarizedPayment)
    (offeredCoins : List Coin) (arb : List (AssetKey × Int))
    (hoff : dictGet? (o.getOfferedCoins run) k = some offeredCoins)
    (harb : o.arbitrage run = .ok arb)
    (hget : (dictGet? arb k).isSome) :
    ∃ l, Offer.toValidSpendKey run o ph k payments = .ok l := by
  obtain ⟨v, hv⟩ := Option.isSome_iff_exists.mp hget
  unfold Offer.toValidSpendKey
  rw [hoff, harb]
  show ∃ l, (match dictGet? arb k with
    | none => (Except.error OfferError.KeyError : Except OfferError (List CoinSpend))
    | some arbitrageAmount =>
      offeredCoins.foldlM
        (completionStep run o k offeredCoins (allPaymentsFor payments arbitrageAmount ph))
        []) = Except.ok l
  rw [hv]
  refine foldlM_ok_of_steps _ offeredCoins ?_ []
  intro c hc spends
  exact completionStep_ok run o k offeredCoins _ c
    (offeredCoins_classify run o.bundle (k, offeredCoins) (dictGet?_eq_some_mem hoff) c hc)
    spends

/-- C10: `to_valid_spend(arbitrage_ph)` completes without error on every
offer whose `is_valid()` returns true and in which each asset key of
`requested_payments` also appears in `get_offered_coins()`; and a true
`is_valid()` alone does not guarantee this — the concrete offer `c10Offer`
has `is_valid()` true, requests a zero-amount payment under a key with no
offered coins, and `to_valid_spend` fails with the dict lookup error
(`KeyError`), not the `Incomplete` error. -/
theorem C10_toValidSpend_totality :
    (∀ (run : Program → Program → List (Hash × Nat)) (o : Offer) (ph : Hash),
      o.isValid run = .ok true →
      (∀ kv ∈ o.requested_payments, (dictGet? (o.getOfferedCoins run) kv.1).isSome = true) →
      ∃ sb, o.toValidSpend run ph = .ok sb)
    ∧ (c10Offer.isValid runLit = .ok true
       ∧ dictGet? c10Offer.requested_payments (some 7) = some [c10Np]
       ∧ ([c10Np].map fun np => np.amount).sum = 0
       ∧ dictGet? (c10Offer.getOfferedCoins runLit) (some 7) = none
       ∧ c10Offer.toValidSpend runLit 55 = .error .KeyError) := by
  constructor
  · intro run o ph hv hkeys
    obtain ⟨arb, harb, _⟩ := isValid_ok_true_elim run o hv
    obtain ⟨offered, requested, hoffok, hreqok, harbeq⟩ := arbitrage_ok_elim run o arb harb
    have hkeys2 : requested.map Prod.fst = o.requested_payments.map Prod.fst := by
      rw [requestedAmounts_ok_eq_map o requested hreqok, List.map_map]
      rfl
    unfold Offer.toValidSpend
    rw [hv]
    have hsteps : ∀ kv ∈ o.requested_payments,
        ∀ (spends : List CoinSpend),
        ∃ out, (match Offer.toValidSpendKey run o ph kv.1 kv.2 with
          | .ok more => Except.ok (spends ++ more)
          | .error e => Except.error e) = Except.ok out := by
      intro kv hkv spends
      have hmem : kv.1 ∈ (requested.map Prod.fst) ++ (offered.map Prod.fst) := by
        rw [List.mem_append]
        refine Or.inl ?_
        rw [hkeys2]
        exact List.mem_map_of_mem Prod.fst hkv
      have hget : (dictGet? arb kv.1).isSome := by
        rw [harbeq, arbDict_get offered requested kv.1, if_pos hmem]
        rfl
      obtain ⟨coins, hcoins⟩ := Option.isSome_iff_exists.mp (hkeys kv hkv)
      obtain ⟨l, hl⟩ := toValidSpendKey_ok run o ph kv.1 kv.2 coins arb hcoins harb hget
      rw [hl]
      exact ⟨spends ++ l, rfl⟩
    obtain ⟨cspends, hcs⟩ := foldlM_ok_of_steps _ o.requested_payments hsteps []
    rw [hcs]
    exact ⟨_, rfl⟩
  · exact ⟨by decide, by decide, by decide, by decide, by decide⟩

/-- C10 witness: completion succeeds at the concrete valid fixture offer
whose only requested key is offered. -/
theorem C10_witness : ∃ sb, wOffer.toValidSpend runLit 55 = .ok sb :=
  C10_toValidSpend_totality.1 runLit wOffer 55 (by decide) (by decide)

end ChiaOffer
